import Mathlib

/-!
# The wheat boot loader (`boot/bootmain.c`)

A shallow embedding of the sector driver (`waitdisk`, `readsect`), the segment
loader (`readseg`) and the boot sequence (`bootmain`), together with the four
port primitives of `libs/x86.h` they use (`inb`, `outb`, `outw`, `insl`).

* Machine words are natural numbers reduced modulo `2^32` (`uint32_t`,
  `uintptr_t`, and the pointers `ph`, `eph`, which the loop of `bootmain`
  compares as unsigned 32-bit addresses), `2^16` (`uint16_t`) or `2^8`
  (`uint8_t`) wherever the C code computes in that width.
* Memory is a function from addresses to bytes; a byte is a natural number, and
  the multi-byte loads reduce each byte modulo 256.
* The two unbounded loops (`waitdisk`, the `for` loop of `readseg`) and the
  program-header loop of `bootmain` take a fuel argument and return `none`
  when it is exhausted.  The two ends of `bootmain`, the call of the entry
  point and the `while (1)` after `bad:`, are terminal outcomes.
* The hardware is an explicit environment inside the machine state: the disk
  contents, the stream of values the input ports deliver, the last value
  written to each output port, the sector latched by the last read command, and
  the ordered trace of port accesses.
* `elf.h` is not part of the sources; its constants enter as a parameter
  (`ElfLayout`).

The file has two parts: all definitions, then lemmas and the theorems for the
properties C1 to C10.
-/

namespace Wheat

/-! ## Machine state -/

/-- One access to an I/O port, as performed by a primitive of `x86.h`. -/
inductive Event where
  | inb (port val : Nat)
  | outb (port val : Nat)
  | outw (port val : Nat)
  | insl (port addr cnt : Nat)
  deriving DecidableEq

/-- The machine: byte-addressed memory and the IDE environment.
`disk s j` is byte `j` of disk sector `s`; `portIn p k` is the value port `p`
delivers when it is the `k`-th port read of the run; `regs p` is the value last
written to port `p`; `cur` is the sector the drive selected when it last
received the read command. -/
structure Machine where
  mem : Nat → Nat
  disk : Nat → Nat → Nat
  portIn : Nat → Nat → Nat
  reads : Nat
  regs : Nat → Nat
  cur : Nat
  trace : List Event

/-- The 28-bit sector address held by the four address registers
`0x1F3..0x1F6` (the low four bits of `0x1F6` are address bits 24..27). -/
def lba (regs : Nat → Nat) : Nat :=
  regs 0x1F3 + 256 * regs 0x1F4 + 65536 * regs 0x1F5 + 16777216 * (regs 0x1F6 % 16)

/-! ## Port primitives (`libs/x86.h`) -/

/-- The primitive `inb(port)`: one byte from the port. -/
def inb (port : Nat) (m : Machine) : Nat × Machine :=
  (m.portIn port m.reads % 256,
   { m with reads := m.reads + 1
            trace := m.trace ++ [Event.inb port (m.portIn port m.reads % 256)] })

/-- The primitive `outb(port, data)`: one byte to the port.  The drive latches
the addressed sector when command `0x20` (read sectors) reaches port `0x1F7`. -/
def outb (port data : Nat) (m : Machine) : Machine :=
  { m with regs := fun p => if p = port then data % 256 else m.regs p
           cur := if port = 0x1F7 ∧ data % 256 = 0x20 then lba m.regs else m.cur
           trace := m.trace ++ [Event.outb port (data % 256)] }

/-- The primitive `outw(port, data)`: one 16-bit word to the port. -/
def outw (port data : Nat) (m : Machine) : Machine :=
  { m with regs := fun p => if p = port then data % 65536 else m.regs p
           trace := m.trace ++ [Event.outw port (data % 65536)] }

/-- The primitive `insl(port, addr, cnt)` (`cld; repne; insl`): `cnt` 32-bit
words from the port are stored at ascending addresses from `addr`, that is
`4 * cnt` bytes; the drive delivers, in order, the bytes of the sector it
latched at the last read command.  Addresses wrap at `2^32`. -/
def insl (port addr cnt : Nat) (m : Machine) : Machine :=
  { m with mem := fun a =>
             if (a + 4294967296 - addr) % 4294967296 < 4 * cnt
             then m.disk m.cur ((a + 4294967296 - addr) % 4294967296)
             else m.mem a
           trace := m.trace ++ [Event.insl port addr cnt] }

/-! ## The sector driver and the segment loader (`boot/bootmain.c`) -/

/-- The constant `SECTSIZE`. -/
def SECTSIZE : Nat := 512

/-- The constant `ELFHDR`, the scratch address, as an integer. -/
def ELFHDR : Nat := 0x10000

/-- The function `waitdisk`: poll port `0x1F7` until `(status & 0xC0) == 0x40`.
`none` when the poll budget is used up. -/
def waitdisk : Nat → Machine → Option Machine
  | 0, _ => none
  | wf + 1, m =>
    if (inb 0x1F7 m).1 &&& 0xC0 ≠ 0x40 then waitdisk wf (inb 0x1F7 m).2
    else some (inb 0x1F7 m).2

/-- The register writes of `readsect` between its two waits. -/
def issueRead (secno : Nat) (m : Machine) : Machine :=
  outb 0x1F7 0x20
    (outb 0x1F6 (((secno >>> 24) &&& 0xF) ||| 0xE0)
      (outb 0x1F5 ((secno >>> 16) &&& 0xFF)
        (outb 0x1F4 ((secno >>> 8) &&& 0xFF)
          (outb 0x1F3 (secno &&& 0xFF)
            (outb 0x1F2 1 m)))))

/-- The function `readsect(dst, secno)`; `wf` bounds the polls of each wait. -/
def readsect (wf : Nat) (m : Machine) (dst secno : Nat) : Option Machine :=
  (waitdisk wf m).bind fun m1 =>
  (waitdisk wf (issueRead secno m1)).bind fun m2 =>
  some (insl 0x1F0 dst (SECTSIZE / 4) m2)

/-- The `for` loop of `readseg`: `for (; va < end_va; va += SECTSIZE, secno++)`,
with `va` and `secno` in 32-bit arithmetic. -/
def readsegLoop (wf : Nat) : Nat → Machine → Nat → Nat → Nat → Option Machine
  | 0, _, _, _, _ => none
  | fuel + 1, m, va, end_va, secno =>
    if va < end_va then
      (readsect wf m va secno).bind fun m1 =>
        readsegLoop wf fuel m1 ((va + SECTSIZE) % 4294967296) end_va
          ((secno + 1) % 4294967296)
    else some m

/-- The function `readseg(va, count, offset)`. -/
def readseg (wf fuel : Nat) (m : Machine) (va count offset : Nat) : Option Machine :=
  readsegLoop wf fuel m
    ((va + 4294967296 - offset % SECTSIZE) % 4294967296)
    ((va + count) % 4294967296)
    ((offset / SECTSIZE + 1) % 4294967296)

/-! ## The boot sequence -/

/-- The declarations of `elf.h` that `bootmain` uses.  The header is not among
the sources, so the magic constant, the byte offsets of the fields inside
`struct elfhdr` and `struct proghdr`, and `sizeof(struct proghdr)`
(`phentsize`) are parameters of the model.  The fields are loaded as 32-bit
words, `e_phnum` as a 16-bit word. -/
structure ElfLayout where
  ELF_MAGIC : Nat
  e_magic : Nat
  e_entry : Nat
  e_phoff : Nat
  e_phnum : Nat
  phentsize : Nat
  p_offset : Nat
  p_va : Nat
  p_memsz : Nat

/-- A little-endian `uint16_t` load. -/
def rd16 (mem : Nat → Nat) (a : Nat) : Nat :=
  mem (a % 4294967296) % 256 + 256 * (mem ((a + 1) % 4294967296) % 256)

/-- A little-endian `uint32_t` load. -/
def rd32 (mem : Nat → Nat) (a : Nat) : Nat :=
  mem (a % 4294967296) % 256 + 256 * (mem ((a + 1) % 4294967296) % 256)
    + 65536 * (mem ((a + 2) % 4294967296) % 256)
    + 16777216 * (mem ((a + 3) % 4294967296) % 256)

/-- The two ways `bootmain` ends: the call of the entry point (which does not
return) and the `bad:` path, which ends in `while (1)`. -/
inductive Outcome where
  | jump (entry : Nat) (m : Machine)
  | halt (m : Machine)

/-- The machine state in which `bootmain` ended. -/
def Outcome.machine : Outcome → Machine
  | Outcome.jump _ m => m
  | Outcome.halt m => m

/-- The address control was transferred to, if any. -/
def Outcome.target : Outcome → Option Nat
  | Outcome.jump e _ => some e
  | Outcome.halt _ => none

/-- The destination argument of the `readseg` call for the entry at `ph`:
`ph->p_va & 0xFFFFFF`. -/
def segVa (L : ElfLayout) (mem : Nat → Nat) (ph : Nat) : Nat :=
  rd32 mem (ph + L.p_va) &&& 0xFFFFFF

/-- The address `bootmain` calls: `ELFHDR->e_entry & 0xFFFFFF`. -/
def entryAddr (L : ElfLayout) (mem : Nat → Nat) : Nat :=
  rd32 mem (ELFHDR + L.e_entry) &&& 0xFFFFFF

/-- The program-header loop of `bootmain`: `for (; ph < eph; ph ++)`, each
step calling `readseg(ph->p_va & 0xFFFFFF, ph->p_memsz, ph->p_offset)`. -/
def loadLoop (L : ElfLayout) (wf fuel : Nat) : Nat → Machine → Nat → Nat → Option Machine
  | 0, _, _, _ => none
  | k + 1, m, ph, eph =>
    if ph < eph then
      (readseg wf fuel m (segVa L m.mem ph) (rd32 m.mem (ph + L.p_memsz))
          (rd32 m.mem (ph + L.p_offset))).bind fun m1 =>
        loadLoop L wf fuel k m1 ((ph + L.phentsize) % 4294967296) eph
    else some m

/-- The function `bootmain`. -/
def bootmain (L : ElfLayout) (wf fuel : Nat) (m : Machine) : Option Outcome :=
  (readseg wf fuel m ELFHDR (SECTSIZE * 8) 0).bind fun m1 =>
  if rd32 m1.mem (ELFHDR + L.e_magic) ≠ L.ELF_MAGIC then
    some (Outcome.halt (outw 0x8A00 0x8E00 (outw 0x8A00 0x8A00 m1)))
  else
    (loadLoop L wf fuel fuel m1
        ((ELFHDR + rd32 m1.mem (ELFHDR + L.e_phoff)) % 4294967296)
        (((ELFHDR + rd32 m1.mem (ELFHDR + L.e_phoff)) % 4294967296
            + L.phentsize * rd16 m1.mem (ELFHDR + L.e_phnum)) % 4294967296)).bind fun m2 =>
    some (Outcome.jump (entryAddr L m2.mem) m2)

/-! ## Concrete data for test runs -/

/-- The standard field layout of a 32-bit ELF file, used for concrete runs:
`e_magic` at byte 0, `e_entry` at 24, `e_phoff` at 28, `e_phnum` at 44; a
program header of 32 bytes with `p_offset` at 4, `p_va` at 8, `p_memsz` at 20;
and the magic number `0x464C457F` quoted in the comment of `bootmain`. -/
def elf32 : ElfLayout :=
  { ELF_MAGIC := 0x464C457F, e_magic := 0, e_entry := 24, e_phoff := 28, e_phnum := 44,
    phentsize := 32, p_offset := 4, p_va := 8, p_memsz := 20 }

/-- A disk that holds the bytes `img` from sector 1 onward. -/
def diskOf (img : Nat → Nat) : Nat → Nat → Nat :=
  fun s j => if 1 ≤ s then img (512 * (s - 1) + j) else 0

/-- A machine with zeroed memory, the given disk, and a drive whose status port
always reads `0x40`. -/
def bootMachine (disk : Nat → Nat → Nat) : Machine :=
  { mem := fun _ => 0, disk := disk, portIn := fun _ _ => 0x40, reads := 0,
    regs := fun _ => 0, cur := 0, trace := [] }

/-- Image bytes given as a list; bytes past the end read as zero. -/
def imgOf (bytes : List Nat) : Nat → Nat :=
  fun i => bytes.getD i 0

/-- Little-endian bytes of a 32-bit word. -/
def le32 (w : Nat) : List Nat :=
  [w % 256, w / 256 % 256, w / 65536 % 256, w / 16777216 % 256]

/-- A program-header entry in the `elf32` layout. -/
def phdr32 (offset va memsz : Nat) : List Nat :=
  le32 1 ++ le32 offset ++ le32 va ++ le32 va ++ le32 memsz ++ le32 memsz ++ le32 5 ++ le32 4096

/-- An ELF header in the `elf32` layout (52 bytes). -/
def ehdr32 (magic entry phoff phnum : Nat) : List Nat :=
  le32 magic ++ List.replicate 20 0 ++ le32 entry ++ le32 phoff ++ List.replicate 12 0
    ++ [phnum % 256, phnum / 256 % 256] ++ List.replicate 6 0

/-! ## Specification-side definitions -/

/-- The drive reports "ready, not busy" on every poll of the status port. -/
def DeviceReady (m : Machine) : Prop :=
  ∀ k, m.portIn 0x1F7 k % 256 &&& 0xC0 = 0x40

/-- The drive answers every wait within `wf` polls: from any point of the
run on, one of the next `wf` reads of the status port reports "ready, not
busy".  A drive that is busy for a while before it is ready qualifies. -/
def DeviceAnswers (wf : Nat) (m : Machine) : Prop :=
  ∀ k, ∃ j, j < wf ∧ m.portIn 0x1F7 (k + j) % 256 &&& 0xC0 = 0x40

/-- Sequential composition of `readsect` calls, one per `(dst, secno)` pair. -/
def readsects (wf : Nat) : Machine → List (Nat × Nat) → Option Machine
  | m, [] => some m
  | m, c :: cs => (readsect wf m c.1 c.2).bind fun m1 => readsects wf m1 cs

/-- The `(dst, secno)` pairs of `n` consecutive sectors read into consecutive
512-byte blocks, in 32-bit arithmetic. -/
def sectorCalls : Nat → Nat → Nat → List (Nat × Nat)
  | 0, _, _ => []
  | n + 1, va, secno =>
    (va, secno) :: sectorCalls n ((va + 512) % 4294967296) ((secno + 1) % 4294967296)

/-- The memory after sector `secno` (a 28-bit address) has been stored at `dst`. -/
def sectorWrite (disk : Nat → Nat → Nat) (dst secno : Nat) (mem : Nat → Nat) : Nat → Nat :=
  fun a =>
    if (a + 4294967296 - dst) % 4294967296 < 512
    then disk (secno % 268435456) ((a + 4294967296 - dst) % 4294967296)
    else mem a

/-- The memory after a list of sector stores. -/
def writes (disk : Nat → Nat → Nat) : List (Nat × Nat) → (Nat → Nat) → Nat → Nat
  | [], mem => mem
  | c :: cs, mem => writes disk cs (sectorWrite disk c.1 c.2 mem)

/-- Whether an event is a block transfer from the data port. -/
def Event.isInsl : Event → Bool
  | Event.insl _ _ _ => true
  | _ => false

/-- The number of sector transfers in a trace. -/
def sectorReads (t : List Event) : Nat := t.countP Event.isInsl

/-- The state `readsect` reaches when both waits succeed at their first poll. -/
def readsectDone (m : Machine) (dst secno : Nat) : Machine :=
  insl 0x1F0 dst (SECTSIZE / 4) (inb 0x1F7 (issueRead secno (inb 0x1F7 m).2)).2

/-! ## Definitions: sector translation -/

/-- The aligned destination base of the spec: `va - offset mod 512` in 32-bit
unsigned arithmetic. -/
def alignedBase (va offset : Nat) : Nat :=
  (va + 4294967296 - offset % 512) % 4294967296

/-- The starting sector of the spec: `floor(offset / 512) + 1`. -/
def startSector (offset : Nat) : Nat := offset / 512 + 1

/-! ## Definitions: status polls -/

/-- The events of `k` successive reads of the status port, the first being
port read number `start` of the run. -/
def statusPolls (portIn : Nat → Nat → Nat) : Nat → Nat → List Event
  | _, 0 => []
  | start, k + 1 =>
    Event.inb 0x1F7 (portIn 0x1F7 start % 256) :: statusPolls portIn (start + 1) k

/-! ## Definitions: the disk image and the sequence of segment loads -/

/-- The executable image as the disk holds it: file offset `j` is byte
`j mod 512` of sector `j / 512 + 1`. -/
def diskImage (disk : Nat → Nat → Nat) : Nat → Nat :=
  fun j => disk (j / 512 + 1) (j % 512)

/-- Sequential composition of the `readseg` calls of `bootmain`, one per
program-header address in the list, each with the arguments its entry holds in
memory when its turn comes. -/
def loadSeq (L : ElfLayout) (wf fuel : Nat) : Machine → List Nat → Option Machine
  | m, [] => some m
  | m, ph :: phs =>
    (readseg wf fuel m (rd32 m.mem (ph + L.p_va) &&& 0xFFFFFF) (rd32 m.mem (ph + L.p_memsz))
        (rd32 m.mem (ph + L.p_offset))).bind fun m1 => loadSeq L wf fuel m1 phs

/-- A machine with zeroed memory and the given disk whose drive reports busy
(`0x80`) at every even-numbered port read and ready (`0x40`) at every odd one. -/
def busyMachine (disk : Nat → Nat → Nat) : Machine :=
  { bootMachine disk with portIn := fun _ k => if k % 2 = 0 then 0x80 else 0x40 }

/-- An image with a wrong magic number. -/
def badMagicImage : Nat → Nat :=
  imgOf (ehdr32 0x12345678 0x100000 52 1 ++ phdr32 0 0x100000 4096)

/-! ## Definitions: program-header addresses, test images and machines -/

/-- The addresses of `n` consecutive program-header entries. -/
def phAddrs (size : Nat) : Nat → Nat → List Nat
  | 0, _ => []
  | n + 1, ph => ph :: phAddrs size n (ph + size)

/-- A well-formed image: one entry, destination `0xC0100000` (masked to
`0x100000`), 4096 bytes from file offset 0; entry point `0xC0100000`. -/
def oneSegImage : Nat → Nat :=
  imgOf (ehdr32 0x464C457F 0xC0100000 52 1 ++ phdr32 0 0xC0100000 4096)

/-- A machine whose disk holds a header with matching magic, `e_phnum = 1` and
`e_phoff = 0xFFFEFFE0`, so that the one-entry table occupies the last 32 bytes
of the address space; the memory there holds an entry with `p_memsz = 1`. -/
def wrapMachine : Machine :=
  { bootMachine (diskOf (imgOf (ehdr32 0x464C457F 0x100000 0xFFFEFFE0 1))) with
    mem := fun a => if a = 0xFFFFFFF4 then 1 else 0 }

/-! ## Definitions: images and their program headers -/

/-- The field `e_phoff` of an image. -/
def imgPhoff (L : ElfLayout) (img : Nat → Nat) : Nat := rd32 img L.e_phoff

/-- The field `e_phnum` of an image. -/
def imgPhnum (L : ElfLayout) (img : Nat → Nat) : Nat := rd16 img L.e_phnum

/-- The masked destination `p_va AND 0xFFFFFF` of entry `k` of an image. -/
def imgDest (L : ElfLayout) (img : Nat → Nat) (k : Nat) : Nat :=
  rd32 img (imgPhoff L img + L.phentsize * k + L.p_va) &&& 0xFFFFFF

/-- The field `p_memsz` of entry `k` of an image. -/
def imgMemsz (L : ElfLayout) (img : Nat → Nat) (k : Nat) : Nat :=
  rd32 img (imgPhoff L img + L.phentsize * k + L.p_memsz)

/-- The field `p_offset` of entry `k` of an image. -/
def imgOffset (L : ElfLayout) (img : Nat → Nat) (k : Nat) : Nat :=
  rd32 img (imgPhoff L img + L.phentsize * k + L.p_offset)

/-- Sanity of the layout parameters: the header fields lie in the 4096-byte
block `bootmain` loads, and the entry fields lie inside an entry. -/
structure ElfLayout.Sane (L : ElfLayout) : Prop where
  magic_in : L.e_magic + 4 ≤ 4096
  entry_in : L.e_entry + 4 ≤ 4096
  phoff_in : L.e_phoff + 4 ≤ 4096
  phnum_in : L.e_phnum + 2 ≤ 4096
  va_in : L.p_va + 4 ≤ L.phentsize
  memsz_in : L.p_memsz + 4 ≤ L.phentsize
  offset_in : L.p_offset + 4 ≤ L.phentsize

/-- A valid executable image of `len` bytes in the sense of the end-to-end
property: matching magic, header and program-header table inside the image,
entries sorted by ascending destination with non-overlapping ranges. -/
structure ValidImage (L : ElfLayout) (img : Nat → Nat) (len : Nat) : Prop where
  magic : rd32 img L.e_magic = L.ELF_MAGIC
  magic_in : L.e_magic + 4 ≤ len
  entry_in : L.e_entry + 4 ≤ len
  phoff_in : L.e_phoff + 4 ≤ len
  phnum_in : L.e_phnum + 2 ≤ len
  table_in : imgPhoff L img + L.phentsize * imgPhnum L img ≤ len
  sorted : ∀ k, k < imgPhnum L img → ∀ j, j < k →
    imgDest L img j + imgMemsz L img j ≤ imgDest L img k

/-- What the loader needs beyond validity: the table lies in the loaded
4096-byte block; the sector-aligned start `dest - offset mod 512` of every
entry exists and is not below the end of any earlier range; no range reaches
past `2^32 - 512`; and no entry's write window
`[dest - offset mod 512, dest + memsz + 511)` meets the scratch block
`0x10000 .. 0x10FFF`. -/
structure SafeToLoad (L : ElfLayout) (img : Nat → Nat) : Prop where
  table_loaded : imgPhoff L img + L.phentsize * imgPhnum L img ≤ 4096
  start_ok : ∀ k, k < imgPhnum L img → imgOffset L img k % 512 ≤ imgDest L img k
  start_clear : ∀ k, k < imgPhnum L img → ∀ j, j < k →
    imgDest L img j + imgMemsz L img j ≤ imgDest L img k - imgOffset L img k % 512
  no_wrap : ∀ k, k < imgPhnum L img → imgDest L img k + imgMemsz L img k ≤ 4294967296 - 512
  scratch_free : ∀ k, k < imgPhnum L img →
    imgDest L img k + imgMemsz L img k + 511 ≤ 0x10000
      ∨ 0x11000 ≤ imgDest L img k - imgOffset L img k % 512

/-- The state of the program-header loop before entry `k`: the drive is ready,
the disk unchanged, the scratch block as loaded, entries below `k` in place. -/
def LoadInv (L : ElfLayout) (m : Machine) (img : Nat → Nat) (len k : Nat)
    (m1 : Machine) : Prop :=
  DeviceReady m1 ∧ m1.disk = m.disk
  ∧ (∀ a, 0x10000 ≤ a → a < 0x11000 → m1.mem a = diskImage m.disk (a - 0x10000))
  ∧ ∀ j, j < k → ∀ i, i < min (imgMemsz L img j) (len - imgOffset L img j) →
      m1.mem (imgDest L img j + i) = img (imgOffset L img j + i)

/-- The image of the end-to-end scenario: one entry with destination
`0x100000`, size 4096 and file offset 0; entry point `0x100000`. -/
def scenarioImage : Nat → Nat :=
  imgOf (ehdr32 0x464C457F 0x100000 52 1 ++ phdr32 0 0x100000 4096)

/-- Two entries, sorted and non-overlapping: 16 bytes at `0x100000` from file
offset 0, then 16 bytes at `0x100010` from file offset `0x210`. -/
def leadPadImage : Nat → Nat :=
  imgOf (ehdr32 0x464C457F 0x100000 52 2 ++ phdr32 0 0x100000 16 ++ phdr32 0x210 0x100010 16)

/-- One entry whose destination is the scratch block: 512 bytes at `0x10000`
from file offset 512. -/
def scratchImage : Nat → Nat :=
  imgOf (ehdr32 0x464C457F 0x100000 52 1 ++ phdr32 512 0x10000 512)

/-- One entry whose range ends exactly at `2^32`. -/
def wrapImage : Nat → Nat :=
  imgOf (ehdr32 0x464C457F 0x100000 52 1 ++ phdr32 0 0x100000 0xFFF00000)

/-- One entry, stored at file offset 4096, behind the loaded block. -/
def farTableImage : Nat → Nat :=
  fun i => if i < 4096 then imgOf (ehdr32 0x464C457F 0x100000 4096 1) i
    else imgOf (phdr32 0 0x100000 16) (i - 4096)

/-- One entry at destination `0x10` with `offset mod 512 = 0x20`: the aligned
start would lie below address 0. -/
def lowDestImage : Nat → Nat :=
  fun i => if i = 0x220 then 0xAB
    else imgOf (ehdr32 0x464C457F 0x100000 52 1 ++ phdr32 0x220 0x10 16) i

/-! ## Lemmas: the sector driver -/

theorem and_ff (x : Nat) : x &&& 0xFF = x % 256 :=
  Nat.and_pow_two_sub_one_eq_mod x 8

theorem and_f (x : Nat) : x &&& 0xF = x % 16 :=
  Nat.and_pow_two_sub_one_eq_mod x 4

theorem and_ffffff (x : Nat) : x &&& 0xFFFFFF = x % 16777216 :=
  Nat.and_pow_two_sub_one_eq_mod x 24

theorem or_e0 : ∀ x, x < 16 → (x ||| 0xE0) = x + 224 := by decide

theorem lba_issueRead (secno : Nat) (m : Machine) :
    (issueRead secno m).cur = secno % 268435456 := by
  have h := or_e0 (secno / 16777216 % 16) (Nat.mod_lt _ (by norm_num))
  simp only [issueRead, outb, lba, and_ff, and_f, Nat.shiftRight_eq_div_pow]
  norm_num
  rw [h]
  omega

theorem waitdisk_ready (wf : Nat) (m : Machine) (h : DeviceReady m) :
    waitdisk (wf + 1) m = some (inb 0x1F7 m).2 := by
  have := h m.reads
  simp [waitdisk, inb, this]

theorem ready_inb (m : Machine) (h : DeviceReady m) : DeviceReady (inb 0x1F7 m).2 := h

theorem ready_issueRead (secno : Nat) (m : Machine) (h : DeviceReady m) :
    DeviceReady (issueRead secno m) := h

theorem readsect_ready (wf : Nat) (m : Machine) (dst secno : Nat) (h : DeviceReady m) :
    readsect (wf + 1) m dst secno = some (readsectDone m dst secno) := by
  unfold readsect
  rw [waitdisk_ready wf m h]
  simp only [Option.some_bind]
  rw [waitdisk_ready wf _ (ready_issueRead secno _ (ready_inb m h))]
  rfl

theorem readsectDone_mem (m : Machine) (dst secno : Nat) :
    (readsectDone m dst secno).mem = sectorWrite m.disk dst secno m.mem := by
  have h := lba_issueRead secno (inb 0x1F7 m).2
  funext a
  have hc : (inb 0x1F7 (issueRead secno (inb 0x1F7 m).2)).2.cur = secno % 268435456 := h
  simp only [readsectDone, insl, SECTSIZE, sectorWrite, hc]
  rfl

theorem readsectDone_disk (m : Machine) (dst secno : Nat) :
    (readsectDone m dst secno).disk = m.disk := rfl

theorem readsectDone_portIn (m : Machine) (dst secno : Nat) :
    (readsectDone m dst secno).portIn = m.portIn := rfl

theorem readsectDone_reads (m : Machine) (dst secno : Nat) :
    sectorReads (readsectDone m dst secno).trace = sectorReads m.trace + 1 := by
  simp [readsectDone, insl, inb, issueRead, outb, sectorReads, List.countP_append,
    List.countP_cons, Event.isInsl]

/-! ## Lemmas: the loop of `readseg` -/

theorem sectorCalls_length : ∀ (n va s : Nat), (sectorCalls n va s).length = n
  | 0, _, _ => rfl
  | n + 1, va, s => by simp [sectorCalls, sectorCalls_length n]

theorem sectorCalls_eq_map : ∀ (n va s : Nat), va < 4294967296 → s < 4294967296 →
    sectorCalls n va s =
      (List.range n).map fun i => ((va + 512 * i) % 4294967296, (s + i) % 4294967296)
  | 0, _, _, _, _ => rfl
  | n + 1, va, s, hva, hs => by
    rw [sectorCalls, sectorCalls_eq_map n _ _ (Nat.mod_lt _ (by norm_num))
      (Nat.mod_lt _ (by norm_num)), List.range_succ_eq_map, List.map_cons, List.map_map]
    have h0 : (va, s) = ((va + 512 * 0) % 4294967296, (s + 0) % 4294967296) := by
      rw [Nat.mul_zero, Nat.add_zero, Nat.add_zero, Nat.mod_eq_of_lt hva, Nat.mod_eq_of_lt hs]
    rw [← h0]
    refine congrArg (List.cons (va, s)) (List.map_congr_left ?_)
    intro i _
    have e1 : ((va + 512) % 4294967296 + 512 * i) % 4294967296
        = (va + 512 * (i + 1)) % 4294967296 := by omega
    have e2 : ((s + 1) % 4294967296 + i) % 4294967296 = (s + (i + 1)) % 4294967296 := by
      omega
    simp only [Function.comp, Nat.succ_eq_add_one, e1, e2]

theorem readsegLoop_exit (wf fuel : Nat) (m : Machine) (va e s : Nat)
    (h : ¬ va < e) : readsegLoop wf (fuel + 1) m va e s = some m := by
  simp [readsegLoop, h]

theorem readsegLoop_unroll (wf : Nat) : ∀ (n fuel : Nat) (m : Machine) (va e s : Nat),
    va < 4294967296 → s < 4294967296 →
    (∀ i, i < n → (va + 512 * i) % 4294967296 < e) → n ≤ fuel →
    readsegLoop wf fuel m va e s =
      (readsects wf m (sectorCalls n va s)).bind fun m1 =>
        readsegLoop wf (fuel - n) m1 ((va + 512 * n) % 4294967296) e
          ((s + n) % 4294967296)
  | 0, fuel, m, va, e, s, hva, hs, _, _ => by
    simp [readsects, sectorCalls, Nat.mod_eq_of_lt hva, Nat.mod_eq_of_lt hs]
  | n + 1, 0, _, _, _, _, _, _, _, hf => by omega
  | n + 1, fuel + 1, m, va, e, s, hva, hs, hc, hf => by
    have h0 : va < e := by
      have := hc 0 (by omega)
      simpa [Nat.mod_eq_of_lt hva] using this
    have hc' : ∀ i, i < n → ((va + 512) % 4294967296 + 512 * i) % 4294967296 < e := by
      intro i hi
      have := hc (i + 1) (by omega)
      have e1 : ((va + 512) % 4294967296 + 512 * i) % 4294967296
          = (va + 512 * (i + 1)) % 4294967296 := by omega
      rw [e1]; exact this
    have e2 : ((va + 512) % 4294967296 + 512 * n) % 4294967296
        = (va + 512 * (n + 1)) % 4294967296 := by omega
    have e3 : ((s + 1) % 4294967296 + n) % 4294967296 = (s + (n + 1)) % 4294967296 := by
      omega
    have e4 : fuel + 1 - (n + 1) = fuel - n := by omega
    simp only [readsegLoop, SECTSIZE, if_pos h0, sectorCalls, readsects]
    cases hr : readsect wf m va s with
    | none => rfl
    | some m1 =>
      simp only [Option.some_bind]
      rw [readsegLoop_unroll wf n fuel m1 _ e _ (Nat.mod_lt _ (by norm_num))
        (Nat.mod_lt _ (by norm_num)) hc' (by omega), e2, e3, e4]

theorem readsegLoop_eq (wf n fuel : Nat) (m : Machine) (va e s : Nat)
    (hva : va < 4294967296) (hs : s < 4294967296)
    (hc : ∀ i, i < n → (va + 512 * i) % 4294967296 < e)
    (hx : ¬ (va + 512 * n) % 4294967296 < e) (hf : n < fuel) :
    readsegLoop wf fuel m va e s = readsects wf m (sectorCalls n va s) := by
  rw [readsegLoop_unroll wf n fuel m va e s hva hs hc (by omega)]
  obtain ⟨k, hk⟩ : ∃ k, fuel - n = k + 1 := ⟨fuel - n - 1, by omega⟩
  rw [hk]
  cases readsects wf m (sectorCalls n va s) with
  | none => rfl
  | some m1 => simp [readsegLoop_exit wf k m1 _ e _ hx]

theorem readsegLoop_diverges (wf : Nat) : ∀ (fuel : Nat) (m : Machine) (va e s : Nat),
    va < 4294967296 → (∀ i, (va + 512 * i) % 4294967296 < e) →
    readsegLoop wf fuel m va e s = none
  | 0, _, _, _, _, _, _ => rfl
  | fuel + 1, m, va, e, s, hva, hc => by
    have h0 : va < e := by
      have := hc 0
      simpa [Nat.mod_eq_of_lt hva] using this
    have hc' : ∀ i, ((va + 512) % 4294967296 + 512 * i) % 4294967296 < e := by
      intro i
      have := hc (i + 1)
      have e1 : ((va + 512) % 4294967296 + 512 * i) % 4294967296
          = (va + 512 * (i + 1)) % 4294967296 := by omega
      rw [e1]; exact this
    simp only [readsegLoop, SECTSIZE, if_pos h0]
    cases readsect wf m va s with
    | none => rfl
    | some m1 =>
      exact readsegLoop_diverges wf fuel m1 _ e _ (Nat.mod_lt _ (by norm_num)) hc'

theorem readsegLoop_some (wf : Nat) : ∀ (fuel : Nat) (m m1 : Machine) (va e s : Nat),
    va < 4294967296 → readsegLoop wf fuel m va e s = some m1 →
    ∃ n, n < fuel ∧ (∀ i, i < n → (va + 512 * i) % 4294967296 < e)
      ∧ ¬ (va + 512 * n) % 4294967296 < e
  | 0, _, _, _, _, _, _, h => by simp [readsegLoop] at h
  | fuel + 1, m, m1, va, e, s, hva, h => by
    by_cases h0 : va < e
    · simp only [readsegLoop, SECTSIZE, if_pos h0] at h
      cases hr : readsect wf m va s with
      | none => simp [hr] at h
      | some m2 =>
        simp only [hr, Option.some_bind] at h
        obtain ⟨n, hn, hc, hx⟩ :=
          readsegLoop_some wf fuel m2 m1 _ e _ (Nat.mod_lt _ (by norm_num)) h
        refine ⟨n + 1, by omega, ?_, ?_⟩
        · intro i hi
          rcases Nat.eq_zero_or_pos i with hi0 | hi0
          · subst hi0; simpa [Nat.mod_eq_of_lt hva] using h0
          · have := hc (i - 1) (by omega)
            have e1 : ((va + 512) % 4294967296 + 512 * (i - 1)) % 4294967296
                = (va + 512 * i) % 4294967296 := by omega
            rw [← e1]; exact this
        · have e2 : ((va + 512) % 4294967296 + 512 * n) % 4294967296
              = (va + 512 * (n + 1)) % 4294967296 := by omega
          rw [← e2]; exact hx
    · exact ⟨0, by omega, by intro i hi; omega, by simpa [Nat.mod_eq_of_lt hva] using h0⟩

/-! ## Lemmas: sector stores -/

theorem readsects_ready (wf : Nat) : ∀ (calls : List (Nat × Nat)) (m : Machine),
    DeviceReady m →
    ∃ m1, readsects (wf + 1) m calls = some m1 ∧ m1.mem = writes m.disk calls m.mem
      ∧ m1.disk = m.disk ∧ m1.portIn = m.portIn
      ∧ sectorReads m1.trace = sectorReads m.trace + calls.length
  | [], m, _ => ⟨m, rfl, rfl, rfl, rfl, rfl⟩
  | c :: cs, m, h => by
    have hr : DeviceReady (readsectDone m c.1 c.2) := h
    obtain ⟨m1, h1, h2, h3, h4, h5⟩ := readsects_ready wf cs _ hr
    refine ⟨m1, ?_, ?_, ?_, ?_, ?_⟩
    · simp [readsects, readsect_ready wf m c.1 c.2 h, h1]
    · rw [h2, readsectDone_mem, readsectDone_disk]; rfl
    · rw [h3]; rfl
    · rw [h4]; rfl
    · rw [h5, readsectDone_reads, List.length_cons]; omega

theorem writes_sectorCalls (disk : Nat → Nat → Nat) : ∀ (n va s : Nat) (mem : Nat → Nat)
    (a : Nat), va + 512 * n ≤ 4294967296 → s + n ≤ 268435456 → a < 4294967296 →
    writes disk (sectorCalls n va s) mem a =
      if va ≤ a ∧ a < va + 512 * n then disk (s + (a - va) / 512) ((a - va) % 512)
      else mem a
  | 0, va, s, mem, a, _, _, _ => by
    have hc : ¬ (va ≤ a ∧ a < va + 512 * 0) := by omega
    simp only [sectorCalls, writes]
    rw [if_neg hc]
  | n + 1, va, s, mem, a, hva, hs, ha => by
    have hw : sectorWrite disk va s mem a =
        if va ≤ a ∧ a < va + 512 then disk s (a - va) else mem a := by
      simp only [sectorWrite]
      by_cases hin : va ≤ a ∧ a < va + 512
      · have h1 : (a + 4294967296 - va) % 4294967296 < 512 := by omega
        have h2 : (a + 4294967296 - va) % 4294967296 = a - va := by omega
        have h3 : s % 268435456 = s := by omega
        rw [if_pos h1, if_pos hin, h2, h3]
      · have h1 : ¬ (a + 4294967296 - va) % 4294967296 < 512 := by omega
        rw [if_neg h1, if_neg hin]
    simp only [sectorCalls, writes]
    rcases Nat.eq_zero_or_pos n with hn | hn
    · subst hn
      simp only [sectorCalls, writes]
      rw [hw]
      by_cases hin : va ≤ a ∧ a < va + 512
      · have hc : va ≤ a ∧ a < va + 512 * (0 + 1) := by omega
        have h1 : s + (a - va) / 512 = s := by omega
        have h2 : (a - va) % 512 = a - va := by omega
        rw [if_pos hin, if_pos hc, h1, h2]
      · have hc : ¬ (va ≤ a ∧ a < va + 512 * (0 + 1)) := by omega
        rw [if_neg hin, if_neg hc]
    · have e1 : (va + 512) % 4294967296 = va + 512 := Nat.mod_eq_of_lt (by omega)
      have e2 : (s + 1) % 4294967296 = s + 1 := Nat.mod_eq_of_lt (by omega)
      rw [e1, e2, writes_sectorCalls disk n (va + 512) (s + 1) _ a (by omega) (by omega) ha,
        hw]
      by_cases hin : va + 512 ≤ a ∧ a < va + 512 + 512 * n
      · have hc : va ≤ a ∧ a < va + 512 * (n + 1) := by omega
        have h1 : s + 1 + (a - (va + 512)) / 512 = s + (a - va) / 512 := by omega
        have h2 : (a - (va + 512)) % 512 = (a - va) % 512 := by omega
        rw [if_pos hin, if_pos hc, h1, h2]
      · rw [if_neg hin]
        by_cases hin2 : va ≤ a ∧ a < va + 512
        · have hc : va ≤ a ∧ a < va + 512 * (n + 1) := by omega
          have h1 : s + (a - va) / 512 = s := by omega
          have h2 : (a - va) % 512 = a - va := by omega
          rw [if_pos hin2, if_pos hc, h1, h2]
        · have hc : ¬ (va ≤ a ∧ a < va + 512 * (n + 1)) := by omega
          rw [if_neg hin2, if_neg hc]

/-! ## Lemmas: `readseg` without wrap-around -/

theorem readseg_bounded (wf fuel : Nat) (m : Machine) (va count offset : Nat)
    (hr : DeviceReady m) (hoff : offset < 4294967296) (hlo : offset % 512 ≤ va)
    (hhi : va + count ≤ 4294966784)
    (hf : (count + offset % 512 + 511) / 512 < fuel) :
    ∃ m1, readseg (wf + 1) fuel m va count offset = some m1 ∧ m1.disk = m.disk
      ∧ m1.portIn = m.portIn
      ∧ sectorReads m1.trace = sectorReads m.trace + (count + offset % 512 + 511) / 512
      ∧ ∀ a, a < 4294967296 → m1.mem a =
          if va - offset % 512 ≤ a
              ∧ a < va - offset % 512 + 512 * ((count + offset % 512 + 511) / 512)
          then m.disk (offset / 512 + 1 + (a - (va - offset % 512)) / 512)
                 ((a - (va - offset % 512)) % 512)
          else m.mem a := by
  have eb : (va + 4294967296 - offset % 512) % 4294967296 = va - offset % 512 := by omega
  have ee : (va + count) % 4294967296 = va + count := by omega
  have es : (offset / 512 + 1) % 4294967296 = offset / 512 + 1 := by omega
  have hc : ∀ i, i < (count + offset % 512 + 511) / 512 →
      (va - offset % 512 + 512 * i) % 4294967296 < va + count := by
    intro i hi; omega
  have hx : ¬ (va - offset % 512 + 512 * ((count + offset % 512 + 511) / 512)) % 4294967296
      < va + count := by omega
  obtain ⟨m1, h1, h2, h3, h4, h5⟩ := readsects_ready wf
    (sectorCalls ((count + offset % 512 + 511) / 512) (va - offset % 512) (offset / 512 + 1))
    m hr
  refine ⟨m1, ?_, h3, h4, ?_, ?_⟩
  · simp only [readseg, SECTSIZE]
    rw [eb, ee, es, readsegLoop_eq (wf + 1) _ fuel m _ _ _ (by omega) (by omega) hc hx hf, h1]
  · rw [h5, sectorCalls_length]
  · intro a ha
    rw [h2, writes_sectorCalls m.disk _ _ _ _ a (by omega) (by omega) ha]

theorem ready_bootMachine (disk : Nat → Nat → Nat) : DeviceReady (bootMachine disk) := by
  intro k
  show (0x40 % 256 &&& 0xC0 : Nat) = 0x40
  decide

theorem diskOf_holds (img : Nat → Nat) (s j : Nat) (hs : 1 ≤ s) :
    diskOf img s j = img (512 * (s - 1) + j) := by
  simp [diskOf, hs]

/-! ## Lemmas: runs on an arbitrary drive -/

theorem no_wrap_of_exit (base e n : Nat) (hb : base < 4294967296)
    (hc : ∀ i, i < n → (base + 512 * i) % 4294967296 < e)
    (hx : ¬ (base + 512 * n) % 4294967296 < e) : base + 512 * n < 4294967296 := by
  by_contra hge
  have hn : 0 < n := by
    rcases Nat.eq_zero_or_pos n with h | h
    · subst h; omega
    · exact h
  have h0 := hc 0 hn
  have hk := hc (n - 8388608 * ((base + 512 * n) / 4294967296)) (by omega)
  omega

theorem waitdisk_some : ∀ (wf : Nat) (m m1 : Machine), waitdisk wf m = some m1 →
    m1.mem = m.mem ∧ m1.disk = m.disk ∧ m1.portIn = m.portIn ∧ m1.regs = m.regs
      ∧ m1.cur = m.cur ∧ sectorReads m1.trace = sectorReads m.trace
  | 0, _, _, h => by simp [waitdisk] at h
  | wf + 1, m, m1, h => by
    have ht : sectorReads (inb 0x1F7 m).2.trace = sectorReads m.trace := by
      simp [inb, sectorReads, List.countP_append, Event.isInsl]
    rw [waitdisk] at h
    by_cases hc : (inb 0x1F7 m).1 &&& 0xC0 ≠ 0x40
    · rw [if_pos hc] at h
      obtain ⟨h1, h2, h3, h4, h5, h6⟩ := waitdisk_some wf _ m1 h
      exact ⟨h1, h2, h3, h4, h5, by rw [h6, ht]⟩
    · rw [if_neg hc, Option.some.injEq] at h
      subst h
      exact ⟨rfl, rfl, rfl, rfl, rfl, ht⟩

theorem waitdisk_answers : ∀ (wf : Nat) (m : Machine) (j : Nat), j < wf →
    m.portIn 0x1F7 (m.reads + j) % 256 &&& 0xC0 = 0x40 → ∃ m1, waitdisk wf m = some m1
  | 0, _, _, h, _ => by omega
  | wf + 1, m, j, hj, hr => by
    rw [waitdisk]
    by_cases hc : (inb 0x1F7 m).1 &&& 0xC0 ≠ 0x40
    · rw [if_pos hc]
      have hj0 : j ≠ 0 := by
        intro h0
        subst h0
        exact hc hr
      have e : m.reads + j = (inb 0x1F7 m).2.reads + (j - 1) := by
        show m.reads + j = m.reads + 1 + (j - 1)
        omega
      rw [e] at hr
      exact waitdisk_answers wf (inb 0x1F7 m).2 (j - 1) (by omega) hr
    · rw [if_neg hc]
      exact ⟨_, rfl⟩

theorem readsect_some (wf : Nat) (m m1 : Machine) (dst secno : Nat)
    (h : readsect wf m dst secno = some m1) :
    m1.mem = sectorWrite m.disk dst secno m.mem ∧ m1.disk = m.disk ∧ m1.portIn = m.portIn
      ∧ sectorReads m1.trace = sectorReads m.trace + 1 := by
  unfold readsect at h
  cases ha : waitdisk wf m with
  | none => simp [ha] at h
  | some ma =>
    rw [ha, Option.some_bind] at h
    cases hb : waitdisk wf (issueRead secno ma) with
    | none => simp [hb] at h
    | some mc =>
      rw [hb, Option.some_bind, Option.some.injEq] at h
      subst h
      obtain ⟨a1, a2, a3, _, _, a6⟩ := waitdisk_some wf m ma ha
      obtain ⟨c1, c2, c3, _, c5, c6⟩ := waitdisk_some wf _ mc hb
      have hcur : mc.cur = secno % 268435456 := by rw [c5]; exact lba_issueRead secno ma
      have hdisk : mc.disk = m.disk := by rw [c2, ← a2]; rfl
      have hmem : mc.mem = m.mem := by rw [c1, ← a1]; rfl
      have hport : mc.portIn = m.portIn := by rw [c3, ← a3]; rfl
      have htr : sectorReads mc.trace = sectorReads m.trace := by
        rw [c6, ← a6]
        simp [issueRead, outb, sectorReads, List.countP_append, Event.isInsl]
      refine ⟨?_, hdisk, hport, ?_⟩
      · funext a
        show (if (a + 4294967296 - dst) % 4294967296 < 4 * (SECTSIZE / 4)
            then mc.disk mc.cur ((a + 4294967296 - dst) % 4294967296) else mc.mem a) = _
        rw [hcur, hdisk, hmem]
        rfl
      · show sectorReads (mc.trace ++ [Event.insl 0x1F0 dst (SECTSIZE / 4)]) = _
        rw [← htr]
        simp [sectorReads, List.countP_append, Event.isInsl]

theorem answers_of_portIn (wf : Nat) (m m1 : Machine) (h : m1.portIn = m.portIn)
    (ha : DeviceAnswers wf m) : DeviceAnswers wf m1 := by
  intro k
  rw [h]
  exact ha k

theorem answers_of_ready (wf : Nat) (m : Machine) (hwf : 0 < wf) (h : DeviceReady m) :
    DeviceAnswers wf m :=
  fun k => ⟨0, hwf, h (k + 0)⟩

theorem readsect_answers (wf : Nat) (m : Machine) (dst secno : Nat)
    (h : DeviceAnswers wf m) : ∃ m1, readsect wf m dst secno = some m1 := by
  obtain ⟨j, hj, hr⟩ := h m.reads
  obtain ⟨ma, ha⟩ := waitdisk_answers wf m j hj hr
  obtain ⟨_, _, a3, _, _, _⟩ := waitdisk_some wf m ma ha
  have hp : (issueRead secno ma).portIn = m.portIn := a3
  obtain ⟨j2, hj2, hr2⟩ := h (issueRead secno ma).reads
  rw [← hp] at hr2
  obtain ⟨mc, hc⟩ := waitdisk_answers wf (issueRead secno ma) j2 hj2 hr2
  exact ⟨_, by unfold readsect; rw [ha, Option.some_bind, hc, Option.some_bind]⟩

theorem readsects_some (wf : Nat) : ∀ (calls : List (Nat × Nat)) (m m1 : Machine),
    readsects wf m calls = some m1 →
    m1.mem = writes m.disk calls m.mem ∧ m1.disk = m.disk ∧ m1.portIn = m.portIn
      ∧ sectorReads m1.trace = sectorReads m.trace + calls.length
  | [], m, m1, h => by
    simp only [readsects, Option.some.injEq] at h
    subst h
    exact ⟨rfl, rfl, rfl, rfl⟩
  | c :: cs, m, m1, h => by
    simp only [readsects] at h
    cases hr : readsect wf m c.1 c.2 with
    | none => simp [hr] at h
    | some m2 =>
      rw [hr, Option.some_bind] at h
      obtain ⟨a1, a2, a3, a4⟩ := readsect_some wf m m2 c.1 c.2 hr
      obtain ⟨b1, b2, b3, b4⟩ := readsects_some wf cs m2 m1 h
      refine ⟨?_, by rw [b2, a2], by rw [b3, a3], ?_⟩
      · rw [b1, a1, a2]; rfl
      · rw [b4, a4, List.length_cons]; omega

theorem readsects_answers (wf : Nat) : ∀ (calls : List (Nat × Nat)) (m : Machine),
    DeviceAnswers wf m → ∃ m1, readsects wf m calls = some m1
  | [], m, _ => ⟨m, rfl⟩
  | c :: cs, m, h => by
    obtain ⟨m2, h2⟩ := readsect_answers wf m c.1 c.2 h
    obtain ⟨_, _, a3, _⟩ := readsect_some wf m m2 c.1 c.2 h2
    obtain ⟨m3, h3⟩ := readsects_answers wf cs m2 (answers_of_portIn wf m m2 a3 h)
    exact ⟨m3, by simp only [readsects]; rw [h2, Option.some_bind, h3]⟩

theorem readseg_bounded_any (wf fuel : Nat) (m m1 : Machine) (va count offset : Nat)
    (hoff : offset < 4294967296) (hlo : offset % 512 ≤ va)
    (hhi : va + count ≤ 4294966784)
    (h : readseg wf fuel m va count offset = some m1) :
    m1.disk = m.disk ∧ m1.portIn = m.portIn
      ∧ sectorReads m1.trace = sectorReads m.trace + (count + offset % 512 + 511) / 512
      ∧ ∀ a, a < 4294967296 → m1.mem a =
          if va - offset % 512 ≤ a
              ∧ a < va - offset % 512 + 512 * ((count + offset % 512 + 511) / 512)
          then m.disk (offset / 512 + 1 + (a - (va - offset % 512)) / 512)
                 ((a - (va - offset % 512)) % 512)
          else m.mem a := by
  have eb : (va + 4294967296 - offset % 512) % 4294967296 = va - offset % 512 := by omega
  have ee : (va + count) % 4294967296 = va + count := by omega
  have es : (offset / 512 + 1) % 4294967296 = offset / 512 + 1 := by omega
  have hc : ∀ i, i < (count + offset % 512 + 511) / 512 →
      (va - offset % 512 + 512 * i) % 4294967296 < va + count := by
    intro i hi; omega
  have hx : ¬ (va - offset % 512 + 512 * ((count + offset % 512 + 511) / 512)) % 4294967296
      < va + count := by omega
  simp only [readseg, SECTSIZE] at h
  rw [eb, ee, es] at h
  obtain ⟨n, hn, hcn, hxn⟩ := readsegLoop_some wf fuel m m1 _ _ _ (by omega) h
  have hne : n = (count + offset % 512 + 511) / 512 := by
    have hw := no_wrap_of_exit _ _ n (by omega) hcn hxn
    rw [Nat.mod_eq_of_lt hw] at hxn
    rcases Nat.eq_zero_or_pos n with h0 | hpos
    · subst h0; omega
    · have hl := hcn (n - 1) (by omega)
      rw [Nat.mod_eq_of_lt (by omega)] at hl
      omega
  subst hne
  rw [readsegLoop_eq wf _ fuel m _ _ _ (by omega) (by omega) hc hx hn] at h
  obtain ⟨h2, h3, h4, h5⟩ := readsects_some wf _ m m1 h
  refine ⟨h3, h4, ?_, ?_⟩
  · rw [h5, sectorCalls_length]
  · intro a ha
    rw [h2, writes_sectorCalls m.disk _ _ _ _ a (by omega) (by omega) ha]

theorem readseg_answers (wf fuel : Nat) (m : Machine) (va count offset : Nat)
    (hoff : offset < 4294967296) (hlo : offset % 512 ≤ va)
    (hhi : va + count ≤ 4294966784) (ha : DeviceAnswers wf m)
    (hf : (count + offset % 512 + 511) / 512 < fuel) :
    ∃ m1, readseg wf fuel m va count offset = some m1 := by
  have eb : (va + 4294967296 - offset % 512) % 4294967296 = va - offset % 512 := by omega
  have ee : (va + count) % 4294967296 = va + count := by omega
  have es : (offset / 512 + 1) % 4294967296 = offset / 512 + 1 := by omega
  have hc : ∀ i, i < (count + offset % 512 + 511) / 512 →
      (va - offset % 512 + 512 * i) % 4294967296 < va + count := by
    intro i hi; omega
  have hx : ¬ (va - offset % 512 + 512 * ((count + offset % 512 + 511) / 512)) % 4294967296
      < va + count := by omega
  obtain ⟨m1, h1⟩ := readsects_answers wf
    (sectorCalls ((count + offset % 512 + 511) / 512) (va - offset % 512) (offset / 512 + 1))
    m ha
  refine ⟨m1, ?_⟩
  simp only [readseg, SECTSIZE]
  rw [eb, ee, es, readsegLoop_eq wf _ fuel m _ _ _ (by omega) (by omega) hc hx hf, h1]

theorem answers_busyMachine (disk : Nat → Nat → Nat) : DeviceAnswers 2 (busyMachine disk) := by
  intro k
  rcases Nat.mod_two_eq_zero_or_one k with h | h
  · refine ⟨1, by decide, ?_⟩
    have e : (k + 1) % 2 ≠ 0 := by omega
    show (if (k + 1) % 2 = 0 then 0x80 else 0x40) % 256 &&& 0xC0 = 0x40
    rw [if_neg e]
    decide
  · refine ⟨0, by decide, ?_⟩
    have e : (k + 0) % 2 ≠ 0 := by omega
    show (if (k + 0) % 2 = 0 then 0x80 else 0x40) % 256 &&& 0xC0 = 0x40
    rw [if_neg e]
    decide

/-! ## C2: `readseg` copies the requested range -/

/-- C2. Against an always-ready drive whose sector `s >= 1` holds image bytes
`512*(s-1) .. 512*s-1`, for 32-bit arguments with `va >= offset mod 512` and
`va + count <= 2^32 - 512`, `readseg(va, count, offset)` returns (given fuel for
its sector reads) and afterwards the memory byte at `va + i` is the image byte
at `offset + i` for every `i < count`; no alignment of `va` or `offset` is
assumed. -/
theorem readseg_copies_range (wf fuel : Nat) (m : Machine) (img : Nat → Nat)
    (va count offset : Nat) (hready : DeviceReady m) (hwf : 0 < wf)
    (himg : ∀ s j, 1 ≤ s → j < 512 → m.disk s j = img (512 * (s - 1) + j))
    (hoff : offset < 4294967296) (hlo : offset % 512 ≤ va)
    (hhi : va + count ≤ 4294967296 - 512)
    (hfuel : (count + offset % 512 + 511) / 512 < fuel) :
    ∃ m1, readseg wf fuel m va count offset = some m1
      ∧ ∀ i, i < count → m1.mem (va + i) = img (offset + i) := by
  obtain ⟨w, rfl⟩ : ∃ w, wf = w + 1 := ⟨wf - 1, by omega⟩
  obtain ⟨m1, h1, _, _, _, h5⟩ :=
    readseg_bounded w fuel m va count offset hready hoff hlo (by omega) hfuel
  refine ⟨m1, h1, ?_⟩
  intro i hi
  have hin : va - offset % 512 ≤ va + i
      ∧ va + i < va - offset % 512 + 512 * ((count + offset % 512 + 511) / 512) := by
    omega
  rw [h5 (va + i) (by omega), if_pos hin, himg _ _ (by omega) (Nat.mod_lt _ (by norm_num))]
  have e : 512 * (offset / 512 + 1 + (va + i - (va - offset % 512)) / 512 - 1)
      + (va + i - (va - offset % 512)) % 512 = offset + i := by omega
  rw [e]

/-- C2, a concrete run: three sectors read for an unaligned 1100-byte request. -/
theorem readseg_copies_range_witness :
    ∃ m1, readseg 1 4 (bootMachine (diskOf fun i => i % 251)) 0x100005 1100 517 = some m1
      ∧ ∀ i, i < 1100 → m1.mem (0x100005 + i) = (517 + i) % 251 :=
  readseg_copies_range 1 4 (bootMachine (diskOf fun i => i % 251)) (fun i => i % 251)
    0x100005 1100 517 (ready_bootMachine _) (by decide)
    (fun s j hs _ => diskOf_holds (fun i => i % 251) s j hs) (by decide) (by decide)
    (by decide) (by decide)

/-! ## C9: the over-read window of `readseg` -/

/-- C9. For `va >= offset mod 512` and `va + count <= 2^32 - 512`, on any
drive: whenever `readseg(va, count, offset)` returns, every memory byte outside
`[va - offset mod 512, va + count + 511)` is unchanged, so all its writes fall
in that window, at most 511 bytes before `va` and at most 511 bytes past
`va + count`; and it does return on every drive that answers each wait within
the poll budget, given fuel for its sector reads. -/
theorem readseg_overread_window (wf fuel : Nat) (m : Machine) (va count offset : Nat)
    (hoff : offset < 4294967296) (hlo : offset % 512 ≤ va)
    (hhi : va + count ≤ 4294967296 - 512) :
    (∀ m1, readseg wf fuel m va count offset = some m1 →
        ∀ a, a < 4294967296 → (a < va - offset % 512 ∨ va + count + 511 ≤ a) →
          m1.mem a = m.mem a)
    ∧ (DeviceAnswers wf m → (count + offset % 512 + 511) / 512 < fuel →
        ∃ m1, readseg wf fuel m va count offset = some m1)
    ∧ va - 511 ≤ va - offset % 512 := by
  refine ⟨?_, ?_, by omega⟩
  · intro m1 h1 a ha hout
    obtain ⟨_, _, _, h5⟩ :=
      readseg_bounded_any wf fuel m m1 va count offset hoff hlo (by omega) h1
    have hin : ¬ (va - offset % 512 ≤ a
        ∧ a < va - offset % 512 + 512 * ((count + offset % 512 + 511) / 512)) := by
      omega
    rw [h5 a ha, if_neg hin]
  · intro hans hfuel
    exact readseg_answers wf fuel m va count offset hoff hlo (by omega) hans hfuel

/-- C9, a concrete run on a drive that is busy at every other poll. -/
theorem readseg_overread_window_witness :
    ∃ m1, readseg 2 4 (busyMachine (diskOf fun i => i % 251)) 0x100005 1100 517 = some m1
      ∧ ∀ a, a < 4294967296 → (a < 0x100005 - 517 % 512 ∨ 0x100005 + 1100 + 511 ≤ a) →
          m1.mem a = (busyMachine (diskOf fun i => i % 251)).mem a := by
  have h := readseg_overread_window 2 4 (busyMachine (diskOf fun i => i % 251))
    0x100005 1100 517 (by decide) (by decide) (by decide)
  obtain ⟨m1, h1⟩ := h.2.1 (answers_busyMachine _) (by decide)
  exact ⟨m1, h1, h.1 m1 h1⟩

/-! ## C10: termination and number of sector reads -/

/-- C10. For `va >= offset mod 512` and `va + count <= 2^32 - 512` on an
always-ready drive, `readseg(va, count, offset)` returns after exactly
`ceil((count + offset mod 512) / 512)` sector transfers, which is zero only for
`count = 0` with `offset` a multiple of 512.  The bound on `va + count` cannot
be dropped: in `readseg(0xFFFFFE00, 0x1FF, 0)`, whose end address is
`2^32 - 1`, the loop variable wraps around, every address it takes is below the
end address, and the call returns for no amount of fuel. -/
theorem readseg_terminates_read_count (wf fuel : Nat) (m : Machine) (va count offset : Nat)
    (hready : DeviceReady m) (hwf : 0 < wf)
    (hoff : offset < 4294967296) (hlo : offset % 512 ≤ va)
    (hhi : va + count ≤ 4294967296 - 512)
    (hfuel : (count + offset % 512 + 511) / 512 < fuel) :
    (∃ m1, readseg wf fuel m va count offset = some m1
      ∧ sectorReads m1.trace = sectorReads m.trace + (count + offset % 512 + 511) / 512)
    ∧ ((count + offset % 512 + 511) / 512 = 0 ↔ count = 0 ∧ offset % 512 = 0)
    ∧ (0xFFFFFE00 + 0x1FF > 4294967296 - 512
        ∧ (∀ i, (alignedBase 0xFFFFFE00 0 + 512 * i) % 4294967296
            < (0xFFFFFE00 + 0x1FF) % 4294967296)
        ∧ ∀ w f, readseg w f m 0xFFFFFE00 0x1FF 0 = none) := by
  obtain ⟨w, rfl⟩ : ∃ w, wf = w + 1 := ⟨wf - 1, by omega⟩
  obtain ⟨m1, h1, _, _, h4, _⟩ :=
    readseg_bounded w fuel m va count offset hready hoff hlo (by omega) hfuel
  have ha : alignedBase 0xFFFFFE00 0 = 4294966784 := by decide
  refine ⟨⟨m1, h1, h4⟩, by omega, by decide, by intro i; rw [ha]; omega, ?_⟩
  intro w f
  have hb : (0xFFFFFE00 + 4294967296 - 0 % SECTSIZE) % 4294967296 = 4294966784 := by decide
  have he : (0xFFFFFE00 + 0x1FF) % 4294967296 = 4294967295 := by decide
  simp only [readseg]
  rw [hb, he]
  exact readsegLoop_diverges w f m _ _ _ (by decide) (by intro i; omega)

/-- C10, a concrete run: an unaligned 1100-byte request takes three transfers. -/
theorem readseg_terminates_read_count_witness :
    (∃ m1, readseg 1 4 (bootMachine (diskOf fun i => i % 251)) 0x100005 1100 517 = some m1
      ∧ sectorReads m1.trace = sectorReads (bootMachine (diskOf fun i => i % 251)).trace
          + (1100 + 517 % 512 + 511) / 512)
    ∧ ((1100 + 517 % 512 + 511) / 512 = 0 ↔ 1100 = 0 ∧ 517 % 512 = 0)
    ∧ (0xFFFFFE00 + 0x1FF > 4294967296 - 512
        ∧ (∀ i, (alignedBase 0xFFFFFE00 0 + 512 * i) % 4294967296
            < (0xFFFFFE00 + 0x1FF) % 4294967296)
        ∧ ∀ w f, readseg w f (bootMachine (diskOf fun i => i % 251)) 0xFFFFFE00 0x1FF 0
            = none) :=
  readseg_terminates_read_count 1 4 (bootMachine (diskOf fun i => i % 251)) 0x100005 1100 517
    (ready_bootMachine _) (by decide) (by decide) (by decide) (by decide) (by decide)

/-! ## C3: sector and offset translation -/

/-- C3. For every 32-bit `va`, `count` and `offset`, `readseg` starts its loop
at the base `va - offset mod 512` (32-bit) and at sector `floor(offset/512) + 1`;
as long as the loop condition holds for the first `n` addresses, its first `n`
iterations are exactly the calls `readsect(base + 512*i, sector + i)` for
`i = 0 .. n-1` (32-bit arithmetic), after which the loop goes on from
`base + 512*n`; and when address `base + 512*n` is the first one not below the
32-bit end address `va + count`, the run is exactly those `n` calls, none of
whose addresses or sector numbers wraps. -/
theorem readseg_sector_translation (wf fuel : Nat) (m : Machine) (va count offset n : Nat)
    (hoff : offset < 4294967296)
    (hrun : ∀ i, i < n →
      (alignedBase va offset + 512 * i) % 4294967296 < (va + count) % 4294967296)
    (hfuel : n ≤ fuel) :
    readseg wf fuel m va count offset
        = readsegLoop wf fuel m (alignedBase va offset) ((va + count) % 4294967296)
            (startSector offset)
    ∧ (readseg wf fuel m va count offset
        = (readsects wf m ((List.range n).map fun i =>
            ((alignedBase va offset + 512 * i) % 4294967296,
             (startSector offset + i) % 4294967296))).bind fun m1 =>
          readsegLoop wf (fuel - n) m1 ((alignedBase va offset + 512 * n) % 4294967296)
            ((va + count) % 4294967296) ((startSector offset + n) % 4294967296))
    ∧ (¬ (alignedBase va offset + 512 * n) % 4294967296 < (va + count) % 4294967296 →
        n < fuel →
        n < 8388608
        ∧ readseg wf fuel m va count offset
            = readsects wf m ((List.range n).map fun i =>
                (alignedBase va offset + 512 * i, startSector offset + i))) := by
  have hb : alignedBase va offset < 4294967296 := Nat.mod_lt _ (by norm_num)
  have hs : startSector offset < 4294967296 := by unfold startSector; omega
  have es : (offset / SECTSIZE + 1) % 4294967296 = startSector offset := by
    simp only [SECTSIZE, startSector]; omega
  have e0 : readseg wf fuel m va count offset
      = readsegLoop wf fuel m (alignedBase va offset) ((va + count) % 4294967296)
          (startSector offset) := by
    simp only [readseg, es]; rfl
  refine ⟨e0, ?_, ?_⟩
  · rw [e0, readsegLoop_unroll wf n fuel m _ _ _ hb hs hrun hfuel,
      sectorCalls_eq_map n _ _ hb hs]
  · intro hx hlt
    have hnw := no_wrap_of_exit _ _ n hb hrun hx
    refine ⟨by omega, ?_⟩
    rw [e0, readsegLoop_eq wf n fuel m _ _ _ hb hs hrun hx hlt, sectorCalls_eq_map n _ _ hb hs]
    congr 1
    apply List.map_congr_left
    intro i hi
    have hi' : i < n := List.mem_range.mp hi
    have e1 : (alignedBase va offset + 512 * i) % 4294967296 = alignedBase va offset + 512 * i :=
      Nat.mod_eq_of_lt (by omega)
    have e2 : (startSector offset + i) % 4294967296 = startSector offset + i :=
      Nat.mod_eq_of_lt (by unfold startSector; omega)
    rw [e1, e2]

/-- C3, a concrete run: offset 517 is not a multiple of 512; the read starts at
sector 2 and at base `0x100000`, and takes three sectors. -/
theorem readseg_sector_translation_witness :
    alignedBase 0x100005 517 = 0x100000 ∧ startSector 517 = 2
    ∧ readseg 1 4 (bootMachine (diskOf fun i => i % 251)) 0x100005 1100 517
        = readsects 1 (bootMachine (diskOf fun i => i % 251))
            [(0x100000, 2), (0x100200, 3), (0x100400, 4)] := by
  have h := readseg_sector_translation 1 4 (bootMachine (diskOf fun i => i % 251))
    0x100005 1100 517 3 (by decide)
    (by intro i hi; interval_cases i <;> decide) (by decide)
  exact ⟨by decide, by decide, (h.2.2 (by decide) (by decide)).2⟩

/-! ## C7: `readseg` is idempotent -/

theorem readsects_zero (m : Machine) (c : Nat × Nat) (cs : List (Nat × Nat)) :
    readsects 0 m (c :: cs) = none := by
  simp [readsects, readsect, waitdisk]

theorem readsects_mem (wf : Nat) (calls : List (Nat × Nat)) (m m1 : Machine)
    (hr : DeviceReady m) (h : readsects wf m calls = some m1) :
    m1.mem = writes m.disk calls m.mem ∧ m1.disk = m.disk ∧ m1.portIn = m.portIn := by
  cases wf with
  | zero =>
    cases calls with
    | nil =>
      simp only [readsects, Option.some.injEq] at h
      subst h
      exact ⟨rfl, rfl, rfl⟩
    | cons c cs => simp [readsects_zero] at h
  | succ w =>
    obtain ⟨m2, h1, h2, h3, h4, _⟩ := readsects_ready w calls m hr
    rw [h1, Option.some.injEq] at h
    subst h
    exact ⟨h2, h3, h4⟩

theorem readsects_again (wf : Nat) (calls : List (Nat × Nat)) (m m1 m0 : Machine)
    (h : readsects wf m calls = some m1) (hr : DeviceReady m0) :
    ∃ m2, readsects wf m0 calls = some m2 := by
  cases wf with
  | zero =>
    cases calls with
    | nil => exact ⟨m0, rfl⟩
    | cons c cs => simp [readsects_zero] at h
  | succ w =>
    obtain ⟨m2, h1, _⟩ := readsects_ready w calls m0 hr
    exact ⟨m2, h1⟩

theorem writes_cases (disk : Nat → Nat → Nat) : ∀ (calls : List (Nat × Nat)) (a : Nat),
    (∀ mem, writes disk calls mem a = mem a)
      ∨ (∀ mem mem1, writes disk calls mem a = writes disk calls mem1 a)
  | [], a => Or.inl fun _ => rfl
  | c :: cs, a => by
    rcases writes_cases disk cs a with h | h
    · by_cases hin : (a + 4294967296 - c.1) % 4294967296 < 512
      · right
        intro mem mem1
        simp only [writes, h, sectorWrite, if_pos hin]
      · left
        intro mem
        simp only [writes, h, sectorWrite, if_neg hin]
    · right
      intro mem mem1
      simp only [writes]
      exact h _ _

theorem writes_idem (disk : Nat → Nat → Nat) (calls : List (Nat × Nat)) (mem : Nat → Nat) :
    writes disk calls (writes disk calls mem) = writes disk calls mem := by
  funext a
  rcases writes_cases disk calls a with h | h
  · rw [h]
  · exact h _ _

/-- C7. On an always-ready drive, whenever `readseg(va, count, offset)` returns,
running it again on the resulting state (the disk is unchanged) returns as well
and leaves memory exactly as the first run left it. -/
theorem readseg_idempotent (wf fuel : Nat) (m m1 : Machine) (va count offset : Nat)
    (hready : DeviceReady m)
    (hfirst : readseg wf fuel m va count offset = some m1) :
    m1.disk = m.disk
    ∧ ∃ m2, readseg wf fuel m1 va count offset = some m2 ∧ m2.mem = m1.mem := by
  have hb : (va + 4294967296 - offset % SECTSIZE) % 4294967296 < 4294967296 :=
    Nat.mod_lt _ (by norm_num)
  have hs : (offset / SECTSIZE + 1) % 4294967296 < 4294967296 := Nat.mod_lt _ (by norm_num)
  simp only [readseg] at hfirst ⊢
  obtain ⟨n, hn, hc, hx⟩ := readsegLoop_some wf fuel m m1 _ _ _ hb hfirst
  rw [readsegLoop_eq wf n fuel m _ _ _ hb hs hc hx hn] at hfirst
  obtain ⟨hmem, hdisk, hport⟩ := readsects_mem wf _ m m1 hready hfirst
  have hr1 : DeviceReady m1 := by
    intro k; rw [hport]; exact hready k
  obtain ⟨m2, h2⟩ := readsects_again wf _ m m1 m1 hfirst hr1
  obtain ⟨hmem2, _, _⟩ := readsects_mem wf _ m1 m2 hr1 h2
  refine ⟨hdisk, m2, ?_, ?_⟩
  · rw [readsegLoop_eq wf n fuel m1 _ _ _ hb hs hc hx hn, h2]
  · rw [hmem2, hmem, hdisk, writes_idem]

/-! ## C8: the command sequence of `readsect` -/

theorem waitdisk_polls : ∀ (k wf : Nat) (m : Machine),
    (∀ i, i < k → m.portIn 0x1F7 (m.reads + i) % 256 &&& 0xC0 ≠ 0x40) →
    m.portIn 0x1F7 (m.reads + k) % 256 &&& 0xC0 = 0x40 → k < wf →
    waitdisk wf m = some { m with reads := m.reads + (k + 1)
                                  trace := m.trace ++ statusPolls m.portIn m.reads (k + 1) }
  | _, 0, _, _, _, h => by omega
  | 0, wf + 1, m, _, hr, _ => by
    have hr' : m.portIn 0x1F7 m.reads % 256 &&& 0xC0 = 0x40 := hr
    simp [waitdisk, inb, hr', statusPolls]
  | k + 1, wf + 1, m, hb, hr, h => by
    have hb0 : m.portIn 0x1F7 m.reads % 256 &&& 0xC0 ≠ 0x40 := hb 0 (by omega)
    have ih := waitdisk_polls k wf (inb 0x1F7 m).2
      (by intro i hi
          have := hb (i + 1) (by omega)
          simpa [inb, Nat.add_assoc, Nat.add_comm 1 i] using this)
      (by simpa [inb, Nat.add_assoc, Nat.add_comm 1 k] using hr)
      (by omega)
    have e : (inb 0x1F7 m).1 &&& 0xC0 ≠ 0x40 := hb0
    rw [waitdisk, if_pos e, ih]
    simp [inb, statusPolls, Nat.add_assoc]
    omega

/-- C8. When the status port reports busy for `k1` polls and then ready, and
after the command busy for `k2` polls and then ready, `readsect(dst, secno)`
returns, and the port accesses it adds to the trace are, in order: the
`k1 + 1` status polls; the writes of 1 to `0x1F2`, of `secno` bits 0-7 to
`0x1F3`, bits 8-15 to `0x1F4`, bits 16-23 to `0x1F5`, of bits 24-27 plus `0xE0`
to `0x1F6` and of `0x20` to `0x1F7`; the `k2 + 1` status polls; one transfer
of 128 words from `0x1F0` to `dst`.  The value written to `0x1F6` has bit 4
clear and bits 5-7 set, the four address registers hold `secno mod 2^28`
(so `secno` itself below `2^28`), and memory changes exactly by the 512 bytes
of that sector stored at `dst`. -/
theorem readsect_command_encoding (wf : Nat) (m : Machine) (dst secno k1 k2 : Nat)
    (hbusy1 : ∀ i, i < k1 → m.portIn 0x1F7 (m.reads + i) % 256 &&& 0xC0 ≠ 0x40)
    (hready1 : m.portIn 0x1F7 (m.reads + k1) % 256 &&& 0xC0 = 0x40)
    (hbusy2 : ∀ i, i < k2 → m.portIn 0x1F7 (m.reads + (k1 + 1) + i) % 256 &&& 0xC0 ≠ 0x40)
    (hready2 : m.portIn 0x1F7 (m.reads + (k1 + 1) + k2) % 256 &&& 0xC0 = 0x40)
    (hwf1 : k1 < wf) (hwf2 : k2 < wf) :
    ∃ m1, readsect wf m dst secno = some m1
      ∧ m1.trace = m.trace ++ statusPolls m.portIn m.reads (k1 + 1)
          ++ [Event.outb 0x1F2 1, Event.outb 0x1F3 (secno % 256),
              Event.outb 0x1F4 (secno / 256 % 256), Event.outb 0x1F5 (secno / 65536 % 256),
              Event.outb 0x1F6 (secno / 16777216 % 16 + 224), Event.outb 0x1F7 0x20]
          ++ statusPolls m.portIn (m.reads + (k1 + 1)) (k2 + 1)
          ++ [Event.insl 0x1F0 dst 128]
      ∧ secno / 16777216 % 16 + 224 = (secno / 16777216 % 16) ||| 0xE0
      ∧ (secno / 16777216 % 16 + 224) % 16 = secno / 16777216 % 16
      ∧ (secno / 16777216 % 16 + 224) / 16 % 2 = 0
      ∧ (secno / 16777216 % 16 + 224) / 32 = 7
      ∧ lba m1.regs = secno % 268435456
      ∧ (secno < 268435456 → lba m1.regs = secno)
      ∧ m1.cur = secno % 268435456
      ∧ m1.mem = sectorWrite m.disk dst secno m.mem := by
  have hor := or_e0 (secno / 16777216 % 16) (Nat.mod_lt _ (by norm_num))
  let ma : Machine :=
    { m with reads := m.reads + (k1 + 1)
             trace := m.trace ++ statusPolls m.portIn m.reads (k1 + 1) }
  let mb : Machine := issueRead secno ma
  let mc : Machine :=
    { mb with reads := mb.reads + (k2 + 1)
              trace := mb.trace ++ statusPolls mb.portIn mb.reads (k2 + 1) }
  have hw1 : waitdisk wf m = some ma := waitdisk_polls k1 wf m hbusy1 hready1 hwf1
  have hw2 : waitdisk wf mb = some mc := waitdisk_polls k2 wf mb hbusy2 hready2 hwf2
  have hcur : mc.cur = secno % 268435456 := lba_issueRead secno ma
  have hlba : lba mc.regs = secno % 268435456 := by
    show lba (issueRead secno ma).regs = secno % 268435456
    simp only [issueRead, outb, lba, and_ff, and_f, Nat.shiftRight_eq_div_pow]
    norm_num
    rw [hor]
    omega
  have htr : mb.trace = ma.trace ++
      [Event.outb 0x1F2 1, Event.outb 0x1F3 (secno % 256),
        Event.outb 0x1F4 (secno / 256 % 256), Event.outb 0x1F5 (secno / 65536 % 256),
        Event.outb 0x1F6 (secno / 16777216 % 16 + 224), Event.outb 0x1F7 0x20] := by
    show (issueRead secno ma).trace = _
    simp only [issueRead, outb, and_ff, and_f, Nat.shiftRight_eq_div_pow]
    norm_num
    rw [hor]
    omega
  refine ⟨insl 0x1F0 dst (SECTSIZE / 4) mc, ?_, ?_, hor.symm, by omega, by omega, by omega,
    hlba, ?_, hcur, ?_⟩
  · unfold readsect
    rw [hw1, Option.some_bind, hw2, Option.some_bind]
  · show (mb.trace ++ statusPolls mb.portIn mb.reads (k2 + 1)) ++ [Event.insl 0x1F0 dst (SECTSIZE / 4)]
      = _
    rw [htr]
    rfl
  · intro h
    rw [show lba (insl 0x1F0 dst (SECTSIZE / 4) mc).regs = lba mc.regs from rfl, hlba]
    exact Nat.mod_eq_of_lt h
  · funext a
    show (if (a + 4294967296 - dst) % 4294967296 < 4 * (SECTSIZE / 4)
        then mc.disk mc.cur ((a + 4294967296 - dst) % 4294967296) else mc.mem a) = _
    rw [hcur]
    rfl

/-- C8, a concrete run: the drive is busy for one poll before the command and
for two polls after it; sector `0x1234567` is requested. -/
theorem readsect_command_encoding_witness :
    ∃ m1, readsect 3
        { bootMachine (diskOf fun i => i % 251) with
          portIn := fun _ k => if k = 0 ∨ k = 2 ∨ k = 3 then 0x80 else 0x40 }
        0x7C00 0x1234567 = some m1
      ∧ m1.trace = [Event.inb 0x1F7 0x80, Event.inb 0x1F7 0x40,
          Event.outb 0x1F2 1, Event.outb 0x1F3 0x67, Event.outb 0x1F4 0x45,
          Event.outb 0x1F5 0x23, Event.outb 0x1F6 0xE1, Event.outb 0x1F7 0x20,
          Event.inb 0x1F7 0x80, Event.inb 0x1F7 0x80, Event.inb 0x1F7 0x40,
          Event.insl 0x1F0 0x7C00 128]
      ∧ lba m1.regs = 0x1234567 := by
  obtain ⟨m1, h1, h2, _, _, _, _, _, h3, _, _⟩ := readsect_command_encoding 3
    { bootMachine (diskOf fun i => i % 251) with
      portIn := fun _ k => if k = 0 ∨ k = 2 ∨ k = 3 then 0x80 else 0x40 }
    0x7C00 0x1234567 1 2
    (by intro i hi; interval_cases i; decide) (by decide)
    (by intro i hi; interval_cases i <;> decide) (by decide) (by decide) (by decide)
  exact ⟨m1, h1, h2, h3 (by decide)⟩

/-! ## Lemmas: the header load -/

theorem header_load (wf fuel : Nat) (m : Machine) (hr : DeviceReady m) (hf : 8 < fuel) :
    ∃ m1, readseg (wf + 1) fuel m ELFHDR (SECTSIZE * 8) 0 = some m1
      ∧ m1.disk = m.disk ∧ m1.portIn = m.portIn
      ∧ sectorReads m1.trace = sectorReads m.trace + 8
      ∧ ∀ a, a < 4294967296 → m1.mem a =
          if 0x10000 ≤ a ∧ a < 0x11000 then diskImage m.disk (a - 0x10000) else m.mem a := by
  obtain ⟨m1, h1, h2, h3, h4, h5⟩ :=
    readseg_bounded wf fuel m 0x10000 4096 0 hr (by decide) (by decide) (by decide)
      (by omega)
  refine ⟨m1, h1, h2, h3, h4, ?_⟩
  intro a ha
  rw [h5 a ha]
  by_cases hin : 0x10000 ≤ a ∧ a < 0x11000
  · have hc : 0x10000 - 0 % 512 ≤ a
        ∧ a < 0x10000 - 0 % 512 + 512 * ((4096 + 0 % 512 + 511) / 512) := by omega
    have e1 : 0 / 512 + 1 + (a - (0x10000 - 0 % 512)) / 512 = (a - 0x10000) / 512 + 1 := by
      omega
    have e2 : (a - (0x10000 - 0 % 512)) % 512 = (a - 0x10000) % 512 := by omega
    rw [if_pos hc, if_pos hin, e1, e2]
    rfl
  · have hc : ¬ (0x10000 - 0 % 512 ≤ a
        ∧ a < 0x10000 - 0 % 512 + 512 * ((4096 + 0 % 512 + 511) / 512)) := by omega
    rw [if_neg hc, if_neg hin]

theorem header_load_any (wf fuel : Nat) (m m1 : Machine)
    (h : readseg wf fuel m ELFHDR (SECTSIZE * 8) 0 = some m1) :
    m1.disk = m.disk ∧ m1.portIn = m.portIn
      ∧ sectorReads m1.trace = sectorReads m.trace + 8
      ∧ ∀ a, a < 4294967296 → m1.mem a =
          if 0x10000 ≤ a ∧ a < 0x11000 then diskImage m.disk (a - 0x10000) else m.mem a := by
  obtain ⟨h2, h3, h4, h5⟩ :=
    readseg_bounded_any wf fuel m m1 0x10000 4096 0 (by decide) (by decide) (by decide) h
  refine ⟨h2, h3, h4, ?_⟩
  intro a ha
  rw [h5 a ha]
  by_cases hin : 0x10000 ≤ a ∧ a < 0x11000
  · have hc : 0x10000 - 0 % 512 ≤ a
        ∧ a < 0x10000 - 0 % 512 + 512 * ((4096 + 0 % 512 + 511) / 512) := by omega
    have e1 : 0 / 512 + 1 + (a - (0x10000 - 0 % 512)) / 512 = (a - 0x10000) / 512 + 1 := by
      omega
    have e2 : (a - (0x10000 - 0 % 512)) % 512 = (a - 0x10000) % 512 := by omega
    rw [if_pos hc, if_pos hin, e1, e2]
    rfl
  · have hc : ¬ (0x10000 - 0 % 512 ≤ a
        ∧ a < 0x10000 - 0 % 512 + 512 * ((4096 + 0 % 512 + 511) / 512)) := by omega
    rw [if_neg hc, if_neg hin]

theorem header_load_calls (wf fuel : Nat) (m : Machine) (hf : 8 < fuel) :
    readseg wf fuel m ELFHDR (SECTSIZE * 8) 0
      = readsects wf m [(0x10000, 1), (0x10200, 2), (0x10400, 3), (0x10600, 4),
          (0x10800, 5), (0x10A00, 6), (0x10C00, 7), (0x10E00, 8)] := by
  have h := readsegLoop_eq wf 8 fuel m 0x10000 0x11000 1 (by decide) (by decide)
    (by intro i hi; omega) (by decide) hf
  exact h

theorem rd32_scratch (mem img : Nat → Nat) (x : Nat) (hx : x + 4 ≤ 4096)
    (h : ∀ a, 0x10000 ≤ a → a < 0x11000 → mem a = img (a - 0x10000)) :
    rd32 mem (ELFHDR + x) = rd32 img x := by
  have e0 : (ELFHDR + x) % 4294967296 = 0x10000 + x := by simp only [ELFHDR]; omega
  have e1 : (ELFHDR + x + 1) % 4294967296 = 0x10000 + x + 1 := by simp only [ELFHDR]; omega
  have e2 : (ELFHDR + x + 2) % 4294967296 = 0x10000 + x + 2 := by simp only [ELFHDR]; omega
  have e3 : (ELFHDR + x + 3) % 4294967296 = 0x10000 + x + 3 := by simp only [ELFHDR]; omega
  have f0 : x % 4294967296 = x := by omega
  have f1 : (x + 1) % 4294967296 = x + 1 := by omega
  have f2 : (x + 2) % 4294967296 = x + 2 := by omega
  have f3 : (x + 3) % 4294967296 = x + 3 := by omega
  have g0 : 0x10000 + x - 0x10000 = x := by omega
  have g1 : 0x10000 + x + 1 - 0x10000 = x + 1 := by omega
  have g2 : 0x10000 + x + 2 - 0x10000 = x + 2 := by omega
  have g3 : 0x10000 + x + 3 - 0x10000 = x + 3 := by omega
  simp only [rd32]
  rw [e0, e1, e2, e3, f0, f1, f2, f3, h _ (by omega) (by omega), h _ (by omega) (by omega),
    h _ (by omega) (by omega), h _ (by omega) (by omega), g0, g1, g2, g3]

theorem rd16_scratch (mem img : Nat → Nat) (x : Nat) (hx : x + 2 ≤ 4096)
    (h : ∀ a, 0x10000 ≤ a → a < 0x11000 → mem a = img (a - 0x10000)) :
    rd16 mem (ELFHDR + x) = rd16 img x := by
  have e0 : (ELFHDR + x) % 4294967296 = 0x10000 + x := by simp only [ELFHDR]; omega
  have e1 : (ELFHDR + x + 1) % 4294967296 = 0x10000 + x + 1 := by simp only [ELFHDR]; omega
  have f0 : x % 4294967296 = x := by omega
  have f1 : (x + 1) % 4294967296 = x + 1 := by omega
  have g0 : 0x10000 + x - 0x10000 = x := by omega
  have g1 : 0x10000 + x + 1 - 0x10000 = x + 1 := by omega
  simp only [rd16]
  rw [e0, e1, f0, f1, h _ (by omega) (by omega), h _ (by omega) (by omega), g0, g1]

theorem header_scratch (m m1 : Machine)
    (h : ∀ a, a < 4294967296 → m1.mem a =
      if 0x10000 ≤ a ∧ a < 0x11000 then diskImage m.disk (a - 0x10000) else m.mem a) :
    ∀ a, 0x10000 ≤ a → a < 0x11000 → m1.mem a = diskImage m.disk (a - 0x10000) := by
  intro a h1 h2
  rw [h a (by omega), if_pos ⟨h1, h2⟩]

/-! ## C4: magic mismatch -/

/-- C4. Whenever the magic field of the header on disk differs from
`ELF_MAGIC`, on any drive: `bootmain` never transfers control; once its header
load returns, which is exactly the eight sector reads of sectors 1..8 into
`0x10000..0x10FFF`, it ends in the halt state, having written `0x8A00` and
then `0x8E00` to port `0x8A00` and nothing else, with no further sector read and
memory as the header load left it; and the header load does return on every
drive that answers each wait within the poll budget. -/
theorem bootmain_bad_magic (L : ElfLayout) (wf fuel : Nat) (m : Machine)
    (hfuel : 8 < fuel) (hfield : L.e_magic + 4 ≤ 4096)
    (hmagic : rd32 (diskImage m.disk) L.e_magic ≠ L.ELF_MAGIC) :
    (∀ m1, readseg wf fuel m ELFHDR (SECTSIZE * 8) 0 = some m1 →
        readsects wf m [(0x10000, 1), (0x10200, 2), (0x10400, 3), (0x10600, 4),
            (0x10800, 5), (0x10A00, 6), (0x10C00, 7), (0x10E00, 8)] = some m1
        ∧ bootmain L wf fuel m
            = some (Outcome.halt (outw 0x8A00 0x8E00 (outw 0x8A00 0x8A00 m1)))
        ∧ (outw 0x8A00 0x8E00 (outw 0x8A00 0x8A00 m1)).trace
            = m1.trace ++ [Event.outw 0x8A00 0x8A00, Event.outw 0x8A00 0x8E00]
        ∧ sectorReads (outw 0x8A00 0x8E00 (outw 0x8A00 0x8A00 m1)).trace
            = sectorReads m.trace + 8
        ∧ (outw 0x8A00 0x8E00 (outw 0x8A00 0x8A00 m1)).mem = m1.mem)
    ∧ (DeviceAnswers wf m → ∃ m1, readseg wf fuel m ELFHDR (SECTSIZE * 8) 0 = some m1)
    ∧ (bootmain L wf fuel m).bind Outcome.target = none := by
  have key : ∀ m1, readseg wf fuel m ELFHDR (SECTSIZE * 8) 0 = some m1 →
      sectorReads m1.trace = sectorReads m.trace + 8
      ∧ bootmain L wf fuel m
          = some (Outcome.halt (outw 0x8A00 0x8E00 (outw 0x8A00 0x8A00 m1))) := by
    intro m1 h1
    obtain ⟨_, _, h4, h5⟩ := header_load_any wf fuel m m1 h1
    have hm : rd32 m1.mem (ELFHDR + L.e_magic) ≠ L.ELF_MAGIC := by
      rw [rd32_scratch m1.mem (diskImage m.disk) L.e_magic hfield (header_scratch m m1 h5)]
      exact hmagic
    refine ⟨h4, ?_⟩
    unfold bootmain
    rw [h1, Option.some_bind, if_pos hm]
  refine ⟨?_, ?_, ?_⟩
  · intro m1 h1
    obtain ⟨h4, hb⟩ := key m1 h1
    refine ⟨?_, hb, ?_, ?_, rfl⟩
    · rw [← header_load_calls wf fuel m hfuel, h1]
    · simp [outw]
    · rw [← h4]
      simp [outw, sectorReads, List.countP_append, Event.isInsl]
  · intro hans
    exact readseg_answers wf fuel m 0x10000 4096 0 (by decide) (by decide) (by decide) hans
      (by omega)
  · cases h1 : readseg wf fuel m ELFHDR (SECTSIZE * 8) 0 with
    | none =>
      unfold bootmain
      rw [h1]
      rfl
    | some m1 =>
      rw [(key m1 h1).2]
      rfl

/-- C4, a concrete run on a drive that is busy at every other poll; the header
starts with `0x12345678`. -/
theorem bootmain_bad_magic_witness :
    ∃ m1, readseg 2 9 (busyMachine (diskOf badMagicImage)) ELFHDR (SECTSIZE * 8) 0 = some m1
      ∧ readsects 2 (busyMachine (diskOf badMagicImage))
          [(0x10000, 1), (0x10200, 2), (0x10400, 3), (0x10600, 4),
            (0x10800, 5), (0x10A00, 6), (0x10C00, 7), (0x10E00, 8)] = some m1
      ∧ bootmain elf32 2 9 (busyMachine (diskOf badMagicImage))
          = some (Outcome.halt (outw 0x8A00 0x8E00 (outw 0x8A00 0x8A00 m1)))
      ∧ (outw 0x8A00 0x8E00 (outw 0x8A00 0x8A00 m1)).trace
          = m1.trace ++ [Event.outw 0x8A00 0x8A00, Event.outw 0x8A00 0x8E00]
      ∧ sectorReads (outw 0x8A00 0x8E00 (outw 0x8A00 0x8A00 m1)).trace
          = sectorReads (busyMachine (diskOf badMagicImage)).trace + 8
      ∧ (outw 0x8A00 0x8E00 (outw 0x8A00 0x8A00 m1)).mem = m1.mem
      ∧ (bootmain elf32 2 9 (busyMachine (diskOf badMagicImage))).bind Outcome.target
          = none := by
  have h := bootmain_bad_magic elf32 2 9 (busyMachine (diskOf badMagicImage))
    (by decide) (by decide) (by decide)
  obtain ⟨m1, h1⟩ := h.2.1 (answers_busyMachine _)
  obtain ⟨a1, a2, a3, a4, a5⟩ := h.1 m1 h1
  exact ⟨m1, h1, a1, a2, a3, a4, a5, h.2.2⟩

/-! ## C5: address masking -/

theorem rd32_lt (mem : Nat → Nat) (a : Nat) : rd32 mem a < 4294967296 := by
  unfold rd32
  omega

theorem rd16_lt (mem : Nat → Nat) (a : Nat) : rd16 mem a < 65536 := by
  unfold rd16
  omega

/-- C5. Whatever 32-bit values the fields `p_va` and `e_entry` hold, the
destination `bootmain` passes to `readseg` and the address it transfers control
to are the value modulo `2^24`: below `2^24`, and equal to the field exactly
when the field is below `2^24`.  The loop step of `bootmain` calls `readseg`
with that destination, and when `bootmain` transfers control the target is the
masked `e_entry` of the final memory. -/
theorem address_masking (L : ElfLayout) (mem : Nat → Nat) (ph : Nat) (wf fuel k : Nat)
    (m : Machine) (eph : Nat) :
    rd32 mem (ph + L.p_va) < 4294967296 ∧ rd32 mem (ELFHDR + L.e_entry) < 4294967296
    ∧ segVa L mem ph = rd32 mem (ph + L.p_va) &&& 0xFFFFFF
    ∧ segVa L mem ph = rd32 mem (ph + L.p_va) % 16777216
    ∧ segVa L mem ph < 16777216
    ∧ (segVa L mem ph = rd32 mem (ph + L.p_va) ↔ rd32 mem (ph + L.p_va) < 16777216)
    ∧ entryAddr L mem = rd32 mem (ELFHDR + L.e_entry) &&& 0xFFFFFF
    ∧ entryAddr L mem = rd32 mem (ELFHDR + L.e_entry) % 16777216
    ∧ entryAddr L mem < 16777216
    ∧ (entryAddr L mem = rd32 mem (ELFHDR + L.e_entry)
        ↔ rd32 mem (ELFHDR + L.e_entry) < 16777216)
    ∧ loadLoop L wf fuel (k + 1) m ph eph
        = (if ph < eph then
            (readseg wf fuel m (rd32 m.mem (ph + L.p_va) % 16777216)
                (rd32 m.mem (ph + L.p_memsz)) (rd32 m.mem (ph + L.p_offset))).bind fun m1 =>
              loadLoop L wf fuel k m1 ((ph + L.phentsize) % 4294967296) eph
          else some m)
    ∧ (bootmain L wf fuel m).bind Outcome.target
        = (bootmain L wf fuel m).bind fun o =>
            match o with
            | Outcome.jump _ m2 => some (rd32 m2.mem (ELFHDR + L.e_entry) % 16777216)
            | Outcome.halt _ => none := by
  have hv : segVa L mem ph = rd32 mem (ph + L.p_va) % 16777216 := and_ffffff _
  have he : entryAddr L mem = rd32 mem (ELFHDR + L.e_entry) % 16777216 := and_ffffff _
  refine ⟨rd32_lt _ _, rd32_lt _ _, rfl, hv, ?_, ?_, rfl, he, ?_, ?_, ?_, ?_⟩
  · rw [hv]; omega
  · rw [hv]; omega
  · rw [he]; omega
  · rw [he]; omega
  · have e : segVa L m.mem ph = rd32 m.mem (ph + L.p_va) % 16777216 := and_ffffff _
    rw [← e]
    rfl
  · unfold bootmain
    cases readseg wf fuel m ELFHDR (SECTSIZE * 8) 0 with
    | none => rfl
    | some m1 =>
      simp only [Option.some_bind]
      split
      · rfl
      · cases loadLoop L wf fuel fuel m1 _ _ with
        | none => rfl
        | some m2 =>
          simp only [Option.some_bind, Outcome.target]
          exact congrArg some (and_ffffff _)

/-! ## C6: iteration over the program headers -/

theorem phAddrs_eq_map (size : Nat) : ∀ (n ph : Nat),
    phAddrs size n ph = (List.range n).map fun i => ph + size * i
  | 0, _ => rfl
  | n + 1, ph => by
    rw [phAddrs, phAddrs_eq_map size n, List.range_succ_eq_map, List.map_cons, List.map_map]
    rw [Nat.mul_zero, Nat.add_zero]
    refine congrArg (List.cons ph) (List.map_congr_left ?_)
    intro i _
    simp only [Function.comp, Nat.succ_eq_add_one, Nat.mul_add, Nat.mul_one]
    omega

theorem loadLoop_eq_loadSeq (L : ElfLayout) (wf fuel : Nat) (hsize : 0 < L.phentsize) :
    ∀ (n k : Nat) (m : Machine) (ph eph : Nat), ph + L.phentsize * n = eph →
      eph < 4294967296 → n < k →
      loadLoop L wf fuel k m ph eph = loadSeq L wf fuel m (phAddrs L.phentsize n ph)
  | _, 0, _, _, _, _, _, h => by omega
  | 0, k + 1, m, ph, eph, he, _, _ => by
    have hlt : ¬ ph < eph := by rw [← he]; omega
    simp only [loadLoop, if_neg hlt, phAddrs, loadSeq]
  | n + 1, k + 1, m, ph, eph, he, hw, h => by
    have e1 : L.phentsize * (n + 1) = L.phentsize * n + L.phentsize := Nat.mul_succ _ _
    have hlt : ph < eph := by omega
    have e2 : (ph + L.phentsize) % 4294967296 = ph + L.phentsize :=
      Nat.mod_eq_of_lt (by omega)
    simp only [loadLoop, if_pos hlt, phAddrs, loadSeq, segVa, e2]
    cases readseg wf fuel m (rd32 m.mem (ph + L.p_va) &&& 0xFFFFFF)
        (rd32 m.mem (ph + L.p_memsz)) (rd32 m.mem (ph + L.p_offset)) with
    | none => rfl
    | some m1 =>
      simp only [Option.some_bind]
      exact loadLoop_eq_loadSeq L wf fuel hsize n k m1 _ eph (by omega) hw (by omega)

/-- C6 (amended). Let the header load of `bootmain` have produced a header with
matching magic whose program-header table, `e_phnum` entries from address
`(0x10000 + e_phoff) mod 2^32`, ends below `2^32`.  Then `bootmain` is exactly
the sequence of `e_phnum` calls of `readseg`, one per entry in ascending table
order, each with the arguments `(p_va AND 0xFFFFFF, p_memsz, p_offset)` its
entry holds when its turn comes (no type or flags field is read), followed by
the transfer of control to the masked entry point; with `e_phnum = 0` control
is transferred right after the header load. -/
theorem bootmain_segment_iteration (L : ElfLayout) (wf fuel : Nat) (m m1 : Machine)
    (hhdr : readseg wf fuel m ELFHDR (SECTSIZE * 8) 0 = some m1)
    (hmagic : rd32 m1.mem (ELFHDR + L.e_magic) = L.ELF_MAGIC)
    (hsize : 0 < L.phentsize)
    (hnowrap : (ELFHDR + rd32 m1.mem (ELFHDR + L.e_phoff)) % 4294967296
        + L.phentsize * rd16 m1.mem (ELFHDR + L.e_phnum) < 4294967296)
    (hfuel : rd16 m1.mem (ELFHDR + L.e_phnum) < fuel) :
    (bootmain L wf fuel m
        = (loadSeq L wf fuel m1 ((List.range (rd16 m1.mem (ELFHDR + L.e_phnum))).map fun i =>
            (ELFHDR + rd32 m1.mem (ELFHDR + L.e_phoff)) % 4294967296 + L.phentsize * i)).bind
          fun m2 => some (Outcome.jump (entryAddr L m2.mem) m2))
    ∧ (rd16 m1.mem (ELFHDR + L.e_phnum) = 0 →
        bootmain L wf fuel m = some (Outcome.jump (entryAddr L m1.mem) m1)) := by
  have hm : ¬ rd32 m1.mem (ELFHDR + L.e_magic) ≠ L.ELF_MAGIC := by simp [hmagic]
  have hb : bootmain L wf fuel m
      = (loadSeq L wf fuel m1 ((List.range (rd16 m1.mem (ELFHDR + L.e_phnum))).map fun i =>
          (ELFHDR + rd32 m1.mem (ELFHDR + L.e_phoff)) % 4294967296 + L.phentsize * i)).bind
        fun m2 => some (Outcome.jump (entryAddr L m2.mem) m2) := by
    unfold bootmain
    rw [hhdr, Option.some_bind, if_neg hm, Nat.mod_eq_of_lt hnowrap,
      loadLoop_eq_loadSeq L wf fuel hsize _ fuel m1 _ _ rfl hnowrap hfuel, phAddrs_eq_map]
  refine ⟨hb, ?_⟩
  intro h0
  rw [hb, h0]
  rfl

/-- C6, a concrete run on a one-entry image. -/
theorem bootmain_segment_iteration_witness :
    ∃ m1, readseg 1 20 (bootMachine (diskOf oneSegImage)) ELFHDR (SECTSIZE * 8) 0 = some m1
      ∧ bootmain elf32 1 20 (bootMachine (diskOf oneSegImage))
          = (loadSeq elf32 1 20 m1 [0x10000 + 52]).bind
              fun m2 => some (Outcome.jump (entryAddr elf32 m2.mem) m2) := by
  obtain ⟨m1, h1, _, _, _, h5⟩ :=
    header_load 0 20 (bootMachine (diskOf oneSegImage)) (ready_bootMachine _) (by decide)
  have hs := header_scratch _ m1 h5
  have e1 : rd32 m1.mem (ELFHDR + elf32.e_magic) = elf32.ELF_MAGIC := by
    rw [rd32_scratch m1.mem _ elf32.e_magic (by decide) hs]; decide
  have e2 : rd32 m1.mem (ELFHDR + elf32.e_phoff) = 52 := by
    rw [rd32_scratch m1.mem _ elf32.e_phoff (by decide) hs]; decide
  have e3 : rd16 m1.mem (ELFHDR + elf32.e_phnum) = 1 := by
    rw [rd16_scratch m1.mem _ elf32.e_phnum (by decide) hs]; decide
  have h := (bootmain_segment_iteration elf32 1 20 (bootMachine (diskOf oneSegImage)) m1 h1 e1
    (by decide) (by rw [e2, e3]; decide) (by rw [e3]; decide)).1
  rw [e2, e3] at h
  exact ⟨m1, h1, h⟩

/-- C6 as stated fails: on `wrapMachine` the header has matching magic and
`e_phnum = 1`, the entry at `0x10000 + e_phoff = 0xFFFFFFE0` asks for one byte,
so a call of `readseg` for it would make a ninth sector transfer; but the end
pointer of the table wraps to 0, and `bootmain` transfers control after the
eight transfers of the header load, without any call of `readseg` for the
entry. -/
theorem bootmain_segment_iteration_counterexample :
    (readseg 1 20 wrapMachine ELFHDR (SECTSIZE * 8) 0).map (fun m1 =>
        (rd32 m1.mem (ELFHDR + elf32.e_magic), rd32 m1.mem (ELFHDR + elf32.e_phoff),
          rd16 m1.mem (ELFHDR + elf32.e_phnum))) = some (0x464C457F, 0xFFFEFFE0, 1)
    ∧ ((readseg 1 20 wrapMachine ELFHDR (SECTSIZE * 8) 0).bind fun m1 =>
          (loadSeq elf32 1 20 m1 [0xFFFFFFE0]).map fun m2 => sectorReads m2.trace) = some 9
    ∧ (bootmain elf32 1 20 wrapMachine).map (fun o => (o.target, sectorReads o.machine.trace))
        = some (some 0x100000, 8)
    ∧ bootmain elf32 1 20 wrapMachine
        ≠ ((readseg 1 20 wrapMachine ELFHDR (SECTSIZE * 8) 0).bind fun m1 =>
            (loadSeq elf32 1 20 m1 [(ELFHDR + 0xFFFEFFE0) % 4294967296]).bind fun m2 =>
              some (Outcome.jump (entryAddr elf32 m2.mem) m2)) := by
  refine ⟨by decide, by decide, by decide, ?_⟩
  intro h
  have h2 := congrArg (Option.map fun o => sectorReads o.machine.trace) h
  revert h2
  decide

/-! ## C1: loading an image end to end -/

theorem rd32_below (f g : Nat → Nat) (len x : Nat) (h : ∀ i, i < len → f i = g i)
    (hx : x + 4 ≤ len) (hx2 : x + 4 ≤ 4096) : rd32 f x = rd32 g x := by
  have f0 : x % 4294967296 = x := by omega
  have f1 : (x + 1) % 4294967296 = x + 1 := by omega
  have f2 : (x + 2) % 4294967296 = x + 2 := by omega
  have f3 : (x + 3) % 4294967296 = x + 3 := by omega
  simp only [rd32]
  rw [f0, f1, f2, f3, h _ (by omega), h _ (by omega), h _ (by omega), h _ (by omega)]

theorem rd16_below (f g : Nat → Nat) (len x : Nat) (h : ∀ i, i < len → f i = g i)
    (hx : x + 2 ≤ len) (hx2 : x + 2 ≤ 4096) : rd16 f x = rd16 g x := by
  have f0 : x % 4294967296 = x := by omega
  have f1 : (x + 1) % 4294967296 = x + 1 := by omega
  simp only [rd16]
  rw [f0, f1, h _ (by omega), h _ (by omega)]

theorem scratch_field (m m1 : Machine) (img : Nat → Nat) (len x : Nat)
    (hs : ∀ a, 0x10000 ≤ a → a < 0x11000 → m1.mem a = diskImage m.disk (a - 0x10000))
    (hd : ∀ i, i < len → diskImage m.disk i = img i)
    (hx : x + 4 ≤ len) (hx2 : x + 4 ≤ 4096) :
    rd32 m1.mem (ELFHDR + x) = rd32 img x := by
  rw [rd32_scratch m1.mem (diskImage m.disk) x hx2 hs, rd32_below _ _ len x hd hx hx2]

theorem entry_bound (L : ElfLayout) (img : Nat → Nat) (k bound off : Nat)
    (hk : k < imgPhnum L img)
    (ht : imgPhoff L img + L.phentsize * imgPhnum L img ≤ bound)
    (ho : off + 4 ≤ L.phentsize) :
    imgPhoff L img + L.phentsize * k + off + 4 ≤ bound := by
  have h1 : L.phentsize * (k + 1) ≤ L.phentsize * imgPhnum L img :=
    Nat.mul_le_mul_left _ hk
  have h2 : L.phentsize * (k + 1) = L.phentsize * k + L.phentsize := Nat.mul_succ _ _
  omega

theorem load_step (L : ElfLayout) (w fuel : Nat) (m m1 : Machine) (img : Nat → Nat)
    (len k : Nat) (hfuel : 8388608 < fuel) (hsane : L.Sane)
    (hdisk : ∀ i, i < len → diskImage m.disk i = img i)
    (hvalid : ValidImage L img len) (hsafe : SafeToLoad L img)
    (hk : k < imgPhnum L img) (hinv : LoadInv L m img len k m1) :
    ∃ m2, readseg (w + 1) fuel m1
        (segVa L m1.mem (0x10000 + imgPhoff L img + L.phentsize * k))
        (rd32 m1.mem (0x10000 + imgPhoff L img + L.phentsize * k + L.p_memsz))
        (rd32 m1.mem (0x10000 + imgPhoff L img + L.phentsize * k + L.p_offset)) = some m2
      ∧ LoadInv L m img len (k + 1) m2 := by
  obtain ⟨hr, hd, hs, hprev⟩ := hinv
  have fld : ∀ off, off + 4 ≤ L.phentsize →
      rd32 m1.mem (0x10000 + imgPhoff L img + L.phentsize * k + off)
        = rd32 img (imgPhoff L img + L.phentsize * k + off) := by
    intro off ho
    have e : 0x10000 + imgPhoff L img + L.phentsize * k + off
        = ELFHDR + (imgPhoff L img + L.phentsize * k + off) := by
      simp only [ELFHDR]; omega
    rw [e]
    exact scratch_field m m1 img len _ hs hdisk
      (entry_bound L img k len off hk hvalid.table_in ho)
      (entry_bound L img k 4096 off hk hsafe.table_loaded ho)
  have eva : segVa L m1.mem (0x10000 + imgPhoff L img + L.phentsize * k) = imgDest L img k := by
    simp only [segVa, imgDest]
    rw [fld L.p_va hsane.va_in]
  have esz : rd32 m1.mem (0x10000 + imgPhoff L img + L.phentsize * k + L.p_memsz)
      = imgMemsz L img k := fld L.p_memsz hsane.memsz_in
  have eof : rd32 m1.mem (0x10000 + imgPhoff L img + L.phentsize * k + L.p_offset)
      = imgOffset L img k := fld L.p_offset hsane.offset_in
  rw [eva, esz, eof]
  have ho : imgOffset L img k < 4294967296 := rd32_lt _ _
  have hlo := hsafe.start_ok k hk
  have hhi := hsafe.no_wrap k hk
  have hsc := hsafe.scratch_free k hk
  have hcl := hsafe.start_clear k hk
  generalize hde : imgDest L img k = d at *
  generalize hse : imgMemsz L img k = s at *
  generalize hoe : imgOffset L img k = o at *
  obtain ⟨m2, h1, h2, h3, _, h5⟩ :=
    readseg_bounded w fuel m1 d s o hr ho hlo (by omega) (by omega)
  refine ⟨m2, h1, ?_, ?_, ?_, ?_⟩
  · intro i; rw [h3]; exact hr i
  · rw [h2, hd]
  · intro a ha1 ha2
    have hout : ¬ (d - o % 512 ≤ a ∧ a < d - o % 512 + 512 * ((s + o % 512 + 511) / 512)) := by
      omega
    rw [h5 a (by omega), if_neg hout]
    exact hs a ha1 ha2
  · intro j hj i hi
    rcases Nat.lt_succ_iff_lt_or_eq.mp hj with hlt | heq
    · have hc := hcl j hlt
      have hi2 : i < imgMemsz L img j := lt_of_lt_of_le hi (Nat.min_le_left _ _)
      have hout : ¬ (d - o % 512 ≤ imgDest L img j + i
          ∧ imgDest L img j + i < d - o % 512 + 512 * ((s + o % 512 + 511) / 512)) := by
        omega
      rw [h5 _ (by omega), if_neg hout]
      exact hprev j hlt i hi
    · subst heq
      rw [hse, hoe] at hi
      rw [hde, hoe]
      have hi1 : i < s := lt_of_lt_of_le hi (Nat.min_le_left _ _)
      have hi2 : i < len - o := lt_of_lt_of_le hi (Nat.min_le_right _ _)
      have hin : d - o % 512 ≤ d + i
          ∧ d + i < d - o % 512 + 512 * ((s + o % 512 + 511) / 512) := by omega
      have e1 : o / 512 + 1 + (d + i - (d - o % 512)) / 512 = (o + i) / 512 + 1 := by omega
      have e2 : (d + i - (d - o % 512)) % 512 = (o + i) % 512 := by omega
      rw [h5 _ (by omega), if_pos hin, e1, e2, hd]
      exact hdisk (o + i) (by omega)

theorem load_loop (L : ElfLayout) (w fuel : Nat) (m : Machine) (img : Nat → Nat)
    (len : Nat) (hfuel : 8388608 < fuel) (hsane : L.Sane)
    (hdisk : ∀ i, i < len → diskImage m.disk i = img i)
    (hvalid : ValidImage L img len) (hsafe : SafeToLoad L img) :
    ∀ (r k fuel1 : Nat) (m1 : Machine), k + r = imgPhnum L img → r < fuel1 →
      LoadInv L m img len k m1 →
      ∃ m2, loadLoop L (w + 1) fuel fuel1 m1 (0x10000 + imgPhoff L img + L.phentsize * k)
          (0x10000 + imgPhoff L img + L.phentsize * imgPhnum L img) = some m2
        ∧ LoadInv L m img len (imgPhnum L img) m2
  | _, _, 0, _, _, h, _ => by omega
  | 0, k, fuel1 + 1, m1, hk, _, hinv => by
    have e : k = imgPhnum L img := by omega
    subst e
    exact ⟨m1, by simp [loadLoop], hinv⟩
  | r + 1, k, fuel1 + 1, m1, hk, hf, hinv => by
    have hklt : k < imgPhnum L img := by omega
    have hsz : 0 < L.phentsize := by have := hsane.va_in; omega
    have hmul : L.phentsize * k < L.phentsize * imgPhnum L img :=
      Nat.mul_lt_mul_of_pos_left hklt hsz
    have hmul2 : L.phentsize * (k + 1) ≤ L.phentsize * imgPhnum L img :=
      Nat.mul_le_mul_left _ hklt
    have hmul3 : L.phentsize * (k + 1) = L.phentsize * k + L.phentsize := Nat.mul_succ _ _
    have htl := hsafe.table_loaded
    have hlt : 0x10000 + imgPhoff L img + L.phentsize * k
        < 0x10000 + imgPhoff L img + L.phentsize * imgPhnum L img := by omega
    have enext : (0x10000 + imgPhoff L img + L.phentsize * k + L.phentsize) % 4294967296
        = 0x10000 + imgPhoff L img + L.phentsize * (k + 1) := by
      rw [Nat.mod_eq_of_lt (by omega)]; omega
    obtain ⟨m2, h1, hinv2⟩ :=
      load_step L w fuel m m1 img len k hfuel hsane hdisk hvalid hsafe hklt hinv
    obtain ⟨m3, h3, hinv3⟩ :=
      load_loop L w fuel m img len hfuel hsane hdisk hvalid hsafe r (k + 1) fuel1 m2
        (by omega) (by omega) hinv2
    refine ⟨m3, ?_, hinv3⟩
    simp only [loadLoop, if_pos hlt, h1, Option.some_bind, enext, h3]

/-- C1 (amended). Let the drive be always ready and the disk hold, from sector
1 onward, a valid image of `len` bytes (matching magic, `N` entries sorted by
ascending masked destination with non-overlapping ranges) that is moreover safe
to load: its table lies in the first 4096 bytes, every entry's sector-aligned
start `dest - offset mod 512` exists and is not below the end of an earlier
range, no range reaches past `2^32 - 512`, and no write window meets the scratch
block.  Then `bootmain` returns by transferring control to the masked entry
point of the header, and in the final memory, for every entry, the first
`min(p_memsz, len - p_offset)` bytes at its masked destination are the image
bytes from its file offset. -/
theorem bootmain_loads_image (L : ElfLayout) (wf fuel : Nat) (m : Machine) (img : Nat → Nat)
    (len : Nat) (hready : DeviceReady m) (hwf : 0 < wf) (hfuel : 8388608 < fuel)
    (hsane : L.Sane) (hdisk : ∀ i, i < len → diskImage m.disk i = img i)
    (hvalid : ValidImage L img len) (hsafe : SafeToLoad L img) :
    ∃ m2, bootmain L wf fuel m = some (Outcome.jump (rd32 img L.e_entry &&& 0xFFFFFF) m2)
      ∧ ∀ k, k < imgPhnum L img →
          ∀ i, i < min (imgMemsz L img k) (len - imgOffset L img k) →
            m2.mem (imgDest L img k + i) = img (imgOffset L img k + i) := by
  obtain ⟨w, rfl⟩ : ∃ w, wf = w + 1 := ⟨wf - 1, by omega⟩
  obtain ⟨m1, h1, h2, h3, _, h5⟩ := header_load w fuel m hready (by omega)
  have hs := header_scratch m m1 h5
  have hinv0 : LoadInv L m img len 0 m1 :=
    ⟨by intro i; rw [h3]; exact hready i, h2, hs, by intro j hj; omega⟩
  have emagic : rd32 m1.mem (ELFHDR + L.e_magic) = L.ELF_MAGIC := by
    rw [scratch_field m m1 img len _ hs hdisk hvalid.magic_in hsane.magic_in]
    exact hvalid.magic
  have ephoff : rd32 m1.mem (ELFHDR + L.e_phoff) = imgPhoff L img :=
    scratch_field m m1 img len _ hs hdisk hvalid.phoff_in hsane.phoff_in
  have ephnum : rd16 m1.mem (ELFHDR + L.e_phnum) = imgPhnum L img := by
    rw [rd16_scratch m1.mem (diskImage m.disk) _ hsane.phnum_in hs,
      rd16_below _ _ len _ hdisk hvalid.phnum_in hsane.phnum_in]
    rfl
  have htl := hsafe.table_loaded
  have hN : imgPhnum L img < 65536 := rd16_lt _ _
  have eph0 : (ELFHDR + imgPhoff L img) % 4294967296
      = 0x10000 + imgPhoff L img + L.phentsize * 0 := by
    simp only [ELFHDR]; omega
  have eph1 : (0x10000 + imgPhoff L img + L.phentsize * 0
      + L.phentsize * imgPhnum L img) % 4294967296
      = 0x10000 + imgPhoff L img + L.phentsize * imgPhnum L img := by
    omega
  obtain ⟨m2, hl, _, _, hs2, hall⟩ :=
    load_loop L w fuel m img len hfuel hsane hdisk hvalid hsafe (imgPhnum L img) 0 fuel m1
      (by omega) (by omega) hinv0
  have hm : ¬ rd32 m1.mem (ELFHDR + L.e_magic) ≠ L.ELF_MAGIC := by simp [emagic]
  have eentry : entryAddr L m2.mem = rd32 img L.e_entry &&& 0xFFFFFF := by
    simp only [entryAddr]
    rw [scratch_field m m2 img len _ hs2 hdisk hvalid.entry_in hsane.entry_in]
  refine ⟨m2, ?_, hall⟩
  unfold bootmain
  rw [h1, Option.some_bind, if_neg hm, ephoff, ephnum, eph0, eph1, hl, Option.some_bind,
    eentry]

theorem diskImage_diskOf (img : Nat → Nat) (i : Nat) : diskImage (diskOf img) i = img i := by
  have e : 512 * (i / 512 + 1 - 1) + i % 512 = i := by omega
  simp only [diskImage, diskOf]
  rw [if_pos (by omega), e]

theorem elf32_sane : elf32.Sane :=
  ⟨by decide, by decide, by decide, by decide, by decide, by decide, by decide⟩

/-- C1, the end-to-end scenario: one entry with destination `0x100000`, size
4096, file offset 0, in an image of two sectors.  Control is transferred to
`0x100000`, and the 1024 image bytes are in place at `0x100000`. -/
theorem bootmain_loads_image_witness :
    ∃ m2, bootmain elf32 1 8388609 (bootMachine (diskOf scenarioImage))
        = some (Outcome.jump 0x100000 m2)
      ∧ ∀ i, i < 1024 → m2.mem (0x100000 + i) = scenarioImage i := by
  obtain ⟨m2, hb, hmem⟩ := bootmain_loads_image elf32 1 8388609
    (bootMachine (diskOf scenarioImage)) scenarioImage 1024 (ready_bootMachine _) (by decide)
    (by decide) elf32_sane (fun i _ => diskImage_diskOf scenarioImage i)
    ⟨by decide, by decide, by decide, by decide, by decide, by decide, by decide⟩
    ⟨by decide, by decide, by decide, by decide, by decide⟩
  have e : rd32 scenarioImage elf32.e_entry &&& 0xFFFFFF = 0x100000 := by decide
  have e0 : imgDest elf32 scenarioImage 0 = 0x100000 := by decide
  have e1 : imgMemsz elf32 scenarioImage 0 = 4096 := by decide
  have e2 : imgOffset elf32 scenarioImage 0 = 0 := by decide
  rw [e] at hb
  refine ⟨m2, hb, ?_⟩
  intro i hi
  have h := hmem 0 (by decide) i (by rw [e1, e2]; omega)
  rw [e0, e2, Nat.zero_add] at h
  exact h

/-- C1 as stated fails on valid images with sorted, non-overlapping entries.
(1) `leadPadImage`: the second entry has `offset mod 512 = 0x10`, so its first
sector is stored from `0x100000` and overwrites the first entry; byte
`0x100000` ends as 0, not as image byte 0.  (2) `scratchImage`: the entry
overwrites the header in the scratch block, and control goes to 0 instead of
the header's entry point `0x100000`.  (3) `wrapImage`: the end address wraps to
0, nothing is read for the entry.  (4) `farTableImage`: the table lies behind
the 4096 bytes loaded, and the entry is never seen.  (5) `lowDestImage`: the
aligned start `0x10 - 0x20` wraps to the top of the address space, and nothing
is read for the entry. -/
theorem bootmain_loads_image_counterexample :
    (ValidImage elf32 leadPadImage 1024
      ∧ imgDest elf32 leadPadImage 0 = 0x100000 ∧ imgOffset elf32 leadPadImage 0 = 0
      ∧ 0 < min (imgMemsz elf32 leadPadImage 0) (1024 - imgOffset elf32 leadPadImage 0)
      ∧ leadPadImage 0 = 0x7F
      ∧ (bootmain elf32 1 20 (bootMachine (diskOf leadPadImage))).map
          (fun o => (o.target, o.machine.mem 0x100000)) = some (some 0x100000, 0))
    ∧ (ValidImage elf32 scratchImage 1024
      ∧ rd32 scratchImage elf32.e_entry &&& 0xFFFFFF = 0x100000
      ∧ (bootmain elf32 1 20 (bootMachine (diskOf scratchImage))).bind Outcome.target
          = some 0)
    ∧ (ValidImage elf32 wrapImage 1024
      ∧ imgDest elf32 wrapImage 0 = 0x100000 ∧ imgOffset elf32 wrapImage 0 = 0
      ∧ 0 < min (imgMemsz elf32 wrapImage 0) (1024 - imgOffset elf32 wrapImage 0)
      ∧ wrapImage 0 = 0x7F
      ∧ (bootmain elf32 1 20 (bootMachine (diskOf wrapImage))).map
          (fun o => (o.target, o.machine.mem 0x100000)) = some (some 0x100000, 0))
    ∧ (ValidImage elf32 farTableImage 4128
      ∧ imgDest elf32 farTableImage 0 = 0x100000 ∧ imgOffset elf32 farTableImage 0 = 0
      ∧ 0 < min (imgMemsz elf32 farTableImage 0) (4128 - imgOffset elf32 farTableImage 0)
      ∧ farTableImage 0 = 0x7F
      ∧ (bootmain elf32 1 20 (bootMachine (diskOf farTableImage))).map
          (fun o => (o.target, o.machine.mem 0x100000)) = some (some 0x100000, 0))
    ∧ (ValidImage elf32 lowDestImage 1024
      ∧ imgDest elf32 lowDestImage 0 = 0x10 ∧ imgOffset elf32 lowDestImage 0 = 0x220
      ∧ 0 < min (imgMemsz elf32 lowDestImage 0) (1024 - imgOffset elf32 lowDestImage 0)
      ∧ lowDestImage 0x220 = 0xAB
      ∧ (bootmain elf32 1 20 (bootMachine (diskOf lowDestImage))).map
          (fun o => (o.target, o.machine.mem 0x10)) = some (some 0x100000, 0)) := by
  refine ⟨⟨⟨by decide, by decide, by decide, by decide, by decide, by decide, by decide⟩,
      by decide, by decide, by decide, by decide, by decide⟩,
    ⟨⟨by decide, by decide, by decide, by decide, by decide, by decide, by decide⟩,
      by decide, by decide⟩,
    ⟨⟨by decide, by decide, by decide, by decide, by decide, by decide, by decide⟩,
      by decide, by decide, by decide, by decide, by decide⟩,
    ⟨⟨by decide, by decide, by decide, by decide, by decide, by decide, by decide⟩,
      by decide, by decide, by decide, by decide, by decide⟩,
    ⟨⟨by decide, by decide, by decide, by decide, by decide, by decide, by decide⟩,
      by decide, by decide, by decide, by decide, by decide⟩⟩

/-- C7, a concrete run: the unaligned 1100-byte request, twice. -/
theorem readseg_idempotent_witness :
    ∃ m1 m2, readseg 1 4 (bootMachine (diskOf fun i => i % 251)) 0x100005 1100 517 = some m1
      ∧ readseg 1 4 m1 0x100005 1100 517 = some m2 ∧ m2.mem = m1.mem := by
  obtain ⟨m1, h1, _⟩ := readseg_bounded 0 4 (bootMachine (diskOf fun i => i % 251))
    0x100005 1100 517 (ready_bootMachine _) (by decide) (by decide) (by decide) (by decide)
  obtain ⟨_, m2, h2, h3⟩ := readseg_idempotent 1 4 (bootMachine (diskOf fun i => i % 251)) m1
    0x100005 1100 517 (ready_bootMachine _) h1
  exact ⟨m1, m2, h1, h2, h3⟩

end Wheat
